import Mathlib

/-!
Verification of the Sudoku solver core (src/sudoku_board.py and
src/sudoku_solvers.py) against its natural-language specification.

The board is a 9x9 grid of naturals (0 = empty, 1-9 = digits), embedded as a
function Fin 9 → Fin 9 → Nat.  Python sets become Finset Nat, the numpy array
becomes the grid function, exceptions become Except results.  Wall-clock time
is not embeddable; the timeout comparison "time.time() - self.start_time >
self.timeout" is abstracted by a Boolean oracle `exceeded` saying whether the
deadline has passed, while the Python truthiness test "if self.timeout"
is kept exactly as "timeout ≠ 0".
-/

abbrev Grid := Fin 9 → Fin 9 → Nat

/-- Box index of a cell: (row // 3) * 3 + (col // 3), as in the source. -/
def subgrid_index (row col : Fin 9) : Fin 9 :=
  ⟨row.val / 3 * 3 + col.val / 3, by omega⟩

/-- Write value v at cell (r, c) of a grid (the numpy assignment
self._board[row][col] = v). -/
def updateCell (g : Grid) (r c : Fin 9) (v : Nat) : Grid :=
  fun i j => if i = r ∧ j = c then v else g i j

/-- State of class SudokuBoard: the numpy grid, the snapshot kept for reset,
the three families of membership sets, and the filled-squares counter. -/
structure SudokuBoard where
  _board : Grid
  _original_board : Grid
  rows : Fin 9 → Finset Nat
  columns : Fin 9 → Finset Nat
  subgrids : Fin 9 → Finset Nat
  filled_values : Int
deriving DecidableEq

attribute [ext] SudokuBoard

namespace SudokuBoard

/-- set(range(1, 10)), the constant _all_possible_values. -/
def _all_possible_values : Finset Nat := Finset.Icc 1 9

/-- Digits present in row i of a grid: the set built by the
_initialise_sets loop (nonzero entries of the row). -/
def initRowSet (g : Grid) (i : Fin 9) : Finset Nat :=
  (Finset.image (fun j => g i j) Finset.univ).filter (fun d => d ≠ 0)

/-- Digits present in column j of a grid (nonzero entries of the column). -/
def initColSet (g : Grid) (j : Fin 9) : Finset Nat :=
  (Finset.image (fun i => g i j) Finset.univ).filter (fun d => d ≠ 0)

/-- Digits present in 3x3 subgrid k of a grid (nonzero entries of the box). -/
def initBoxSet (g : Grid) (k : Fin 9) : Finset Nat :=
  (Finset.image (fun p : Fin 9 × Fin 9 => g p.1 p.2)
    (Finset.univ.filter (fun p : Fin 9 × Fin 9 => subgrid_index p.1 p.2 = k))).filter
    (fun d => d ≠ 0)

/-- duplication_check_1d for row i: len(unique(arr[arr>0])) < count_nonzero(arr>0). -/
def dupInRow (g : Grid) (i : Fin 9) : Prop :=
  ((Finset.univ.filter (fun j => 0 < g i j)).image (fun j => g i j)).card <
    (Finset.univ.filter (fun j => 0 < g i j)).card

/-- duplication_check_1d for column j. -/
def dupInCol (g : Grid) (j : Fin 9) : Prop :=
  ((Finset.univ.filter (fun i => 0 < g i j)).image (fun i => g i j)).card <
    (Finset.univ.filter (fun i => 0 < g i j)).card

/-- duplication_check_1d for the flattened 3x3 subgrid k. -/
def dupInBox (g : Grid) (k : Fin 9) : Prop :=
  ((Finset.univ.filter
      (fun p : Fin 9 × Fin 9 => subgrid_index p.1 p.2 = k ∧ 0 < g p.1 p.2)).image
      (fun p : Fin 9 × Fin 9 => g p.1 p.2)).card <
    (Finset.univ.filter
      (fun p : Fin 9 × Fin 9 => subgrid_index p.1 p.2 = k ∧ 0 < g p.1 p.2)).card

instance (g : Grid) (i : Fin 9) : Decidable (dupInRow g i) := by
  unfold dupInRow; infer_instance

instance (g : Grid) (j : Fin 9) : Decidable (dupInCol g j) := by
  unfold dupInCol; infer_instance

instance (g : Grid) (k : Fin 9) : Decidable (dupInBox g k) := by
  unfold dupInBox; infer_instance

/-- _validate_board_legality: all elements in 0-9 (the lower bound is inherent
in Nat), and no duplicate nonzero value in any row, column, or subgrid.
Raising ValueError is modelled by an error result. -/
def _validate_board_legality (g : Grid) : Except String Unit :=
  if ¬ (∀ i j, g i j ≤ 9) then
    .error "[ERROR] Input string does not represent a valid Sudoku board\nAll elements must be integers between 0 and 9"
  else if (∃ i, dupInRow g i) ∨ (∃ j, dupInCol g j) ∨ (∃ k, dupInBox g k) then
    .error "[ERROR] Input string does not represent a valid Sudoku board\nDuplicate values found in rows, columns, or subgrids"
  else
    .ok ()

/-- __init__: the dtype and shape checks are subsumed by the Grid type; the
legality validation runs, then the sets are populated from the filled cells
and filled_values is initialised to 0 (the source never counts the clues).
The fewer-than-17-clues warning is a print with no effect on the state. -/
def construct (g : Grid) : Except String SudokuBoard :=
  match _validate_board_legality g with
  | .error msg => .error msg
  | .ok _ =>
      .ok { _board := g
            _original_board := g
            rows := initRowSet g
            columns := initColSet g
            subgrids := initBoxSet g
            filled_values := 0 }

/-- reset: restores only the grid from the original snapshot; the three set
families and filled_values are left untouched by the source. -/
def reset (b : SudokuBoard) : SudokuBoard :=
  { b with _board := b._original_board }

/-- check_valid: membership test against the three sets, no digit validation. -/
def check_valid (b : SudokuBoard) (row col : Fin 9) (num : Nat) : Bool :=
  decide (num ∉ b.rows row ∧ num ∉ b.columns col ∧
    num ∉ b.subgrids (subgrid_index row col))

/-- place_number: validates the digit range, then the position via
check_valid, then mutates grid, sets, and counter.  ValueError is an error
result; the state is untouched on error because both checks precede all
mutation in the source. -/
def place_number (b : SudokuBoard) (row col : Fin 9) (num : Nat) :
    Except String SudokuBoard :=
  if num < 1 ∨ 9 < num then
    .error "Number must be an integer in the range 1-9"
  else if b.check_valid row col num then
    .ok { b with
          _board := updateCell b._board row col num
          rows := fun i => if i = row then insert num (b.rows row) else b.rows i
          columns := fun j => if j = col then insert num (b.columns col) else b.columns j
          subgrids := fun k =>
            if k = subgrid_index row col then
              insert num (b.subgrids (subgrid_index row col))
            else b.subgrids k
          filled_values := b.filled_values + 1 }
  else
    .error "Number violates sudoku rules at the specified position"

/-- remove_number: the source first zeroes the grid cell, then calls .remove
on the row, column, and subgrid sets in that order (each raises KeyError when
the digit is absent), then decrements the counter.  A raised KeyError is an
error result carrying the partially mutated state at the point of the raise. -/
def remove_number (b : SudokuBoard) (row col : Fin 9) (num : Nat) :
    Except (String × SudokuBoard) SudokuBoard :=
  let b1 : SudokuBoard := { b with _board := updateCell b._board row col 0 }
  if num ∈ b1.rows row then
    let b2 : SudokuBoard :=
      { b1 with rows := fun i => if i = row then (b1.rows row).erase num else b1.rows i }
    if num ∈ b2.columns col then
      let b3 : SudokuBoard :=
        { b2 with columns := fun j =>
            if j = col then (b2.columns col).erase num else b2.columns j }
      if num ∈ b3.subgrids (subgrid_index row col) then
        let b4 : SudokuBoard :=
          { b3 with subgrids := fun k =>
              if k = subgrid_index row col then
                (b3.subgrids (subgrid_index row col)).erase num
              else b3.subgrids k }
        .ok { b4 with filled_values := b4.filled_values - 1 }
      else .error ("KeyError", b3)
    else .error ("KeyError", b2)
  else .error ("KeyError", b1)

/-- find_possible_cell_values: {1..9} minus the union of the row, column, and
subgrid sets of the cell. -/
def find_possible_cell_values (b : SudokuBoard) (row col : Fin 9) : Finset Nat :=
  _all_possible_values \
    (b.rows row ∪ b.columns col ∪ b.subgrids (subgrid_index row col))

/-- get_empty_cells: row-major (np.where C-order) list of the coordinates of
the zero cells; the empty list stands for the (None, None) return. -/
def get_empty_cells (b : SudokuBoard) : List (Fin 9 × Fin 9) :=
  (((List.finRange 9).map
     (fun i => (List.finRange 9).map (fun j => (i, j)))).flatten).filter
    (fun p => b._board p.1 p.2 = 0)

end SudokuBoard

/-! ## The two backtracking solvers

The recursion of _backtrack is embedded with an explicit fuel argument (the
recursion depth is at most one more than the number of empty cells, which is
at most 82; fuel exhaustion is modelled as Python's RecursionError and is
proved unreachable where it matters).  The timeout guard
"self.timeout and (time.time() - self.start_time > self.timeout)" becomes
"timeout ≠ 0 ∧ exceeded = true" with `exceeded` the wall-clock oracle. -/

/-- Outcome of a _backtrack call: the Boolean return value together with the
mutated board, a propagating TimeoutException, or a propagating
ValueError/KeyError/RecursionError carrying the state at the raise. -/
inductive BTOutcome where
  | done (solved : Bool) (b : SudokuBoard)
  | timedOut (b : SudokuBoard)
  | raised (msg : String) (b : SudokuBoard)
deriving DecidableEq

/-- The `for num in range(1, 10)` loop body of BacktrackingSolverBasic._backtrack,
with `bt` the recursive call at the next depth: skip digits failing check_valid;
otherwise place, recurse, and on an unsolved result undo the move and continue. -/
def tryNumsBasic (bt : SudokuBoard → BTOutcome) (i j : Fin 9) :
    List Nat → SudokuBoard → BTOutcome
  | [], b => .done false b
  | num :: rest, b =>
    if b.check_valid i j num then
      match b.place_number i j num with
      | .error msg => .raised msg b
      | .ok b1 =>
        match bt b1 with
        | .done true b2 => .done true b2
        | .done false b2 =>
          match b2.remove_number i j num with
          | .error e => .raised e.1 e.2
          | .ok b3 => tryNumsBasic bt i j rest b3
        | out => out
    else
      tryNumsBasic bt i j rest b

/-- BacktrackingSolverBasic._backtrack: timeout guard, terminal test on the
empty-cell list, then the digit loop at the first empty cell. -/
def _backtrack_basic (exceeded : Bool) (timeout : ℚ) :
    Nat → SudokuBoard → BTOutcome
  | 0, b => .raised "RecursionError" b
  | fuel + 1, b =>
    if timeout ≠ 0 ∧ exceeded = true then .timedOut b
    else
      match b.get_empty_cells with
      | [] => .done true b
      | (i, j) :: _ =>
        tryNumsBasic (_backtrack_basic exceeded timeout fuel) i j
          (List.range' 1 9) b

/-- BacktrackingSolverEasiestFirst._find_easiest_cell: compute the candidate
set of every listed cell and return the first cell whose candidate count is
minimal (list.index(min(...)) picks the first occurrence); none on an empty
list (where the source's min() would raise). -/
def _find_easiest_cell (b : SudokuBoard) (cells : List (Fin 9 × Fin 9)) :
    Option ((Fin 9 × Fin 9) × Finset Nat) :=
  let cell_options := cells.map
    (fun p => (p, b.find_possible_cell_values p.1 p.2))
  match (cell_options.map (fun q => q.2.card)).min? with
  | none => none
  | some m => cell_options.find? (fun q => q.2.card = m)

/-- The `for num in cell_options` loop body of
BacktrackingSolverEasiestFirst._backtrack: no check_valid pre-filter, the
placement is attempted directly for each candidate. -/
def tryNumsEasiest (bt : SudokuBoard → BTOutcome) (i j : Fin 9) :
    List Nat → SudokuBoard → BTOutcome
  | [], b => .done false b
  | num :: rest, b =>
    match b.place_number i j num with
    | .error msg => .raised msg b
    | .ok b1 =>
      match bt b1 with
      | .done true b2 => .done true b2
      | .done false b2 =>
        match b2.remove_number i j num with
        | .error e => .raised e.1 e.2
        | .ok b3 => tryNumsEasiest bt i j rest b3
      | out => out

/-- BacktrackingSolverEasiestFirst._backtrack: like the basic solver but the
cell is chosen by _find_easiest_cell and only its candidate set is tried.
A CPython set of digits 1-9 is iterated in a deterministic hash order; it is
embedded as the ascending sorted list (every claim proved below is
independent of this order). -/
def _backtrack_easiest (exceeded : Bool) (timeout : ℚ) :
    Nat → SudokuBoard → BTOutcome
  | 0, b => .raised "RecursionError" b
  | fuel + 1, b =>
    if timeout ≠ 0 ∧ exceeded = true then .timedOut b
    else
      match b.get_empty_cells with
      | [] => .done true b
      | cells@(_ :: _) =>
        match _find_easiest_cell b cells with
        | none => .raised "ValueError" b
        | some ((i, j), cell_options) =>
          tryNumsEasiest (_backtrack_easiest exceeded timeout fuel) i j
            (cell_options.sort (· ≤ ·)) b

/-- Shared body of BacktrackingSolverBasic.solve (also inherited by the
easiest-first solver): run the given _backtrack on the board, catch
TimeoutException as "Timeout occurred", and otherwise classify by comparing
the final grid with the deep copy taken at entry.  The result carries the
Optional[SudokuBoard] return, the status string, and the final internal
board; an uncaught ValueError/KeyError propagates as an error. -/
def solveWith (bt : Nat → SudokuBoard → BTOutcome) (board : SudokuBoard) :
    Except String (Option SudokuBoard × String × SudokuBoard) :=
  match bt 100 board with
  | .raised msg _ => .error msg
  | .timedOut b => .ok (none, "Timeout occurred", b)
  | .done _ b =>
    if b._board = board._board then .ok (none, "Board has no solution", b)
    else .ok (some b, "Solved", b)

/-- BacktrackingSolverBasic.solve with the given timeout configuration. -/
def solveBasic (timeout : ℚ) (exceeded : Bool) (board : SudokuBoard) :
    Except String (Option SudokuBoard × String × SudokuBoard) :=
  solveWith (_backtrack_basic exceeded timeout) board

/-- BacktrackingSolverEasiestFirst.solve with the given timeout configuration. -/
def solveEasiest (timeout : ℚ) (exceeded : Bool) (board : SudokuBoard) :
    Except String (Option SudokuBoard × String × SudokuBoard) :=
  solveWith (_backtrack_easiest exceeded timeout) board

/-- Status string of a solve result. -/
def statusOf (r : Except String (Option SudokuBoard × String × SudokuBoard)) :
    Except String String :=
  r.map (fun out => out.2.1)

/-! ## Grid-level predicates and the consistency invariant -/

/-- No two cells of a row hold the same nonzero digit. -/
def noDupRow (g : Grid) : Prop :=
  ∀ i j j', j ≠ j' → g i j ≠ 0 → g i j ≠ g i j'

/-- No two cells of a column hold the same nonzero digit. -/
def noDupCol (g : Grid) : Prop :=
  ∀ j i i', i ≠ i' → g i j ≠ 0 → g i j ≠ g i' j

/-- No two cells of a 3x3 subgrid hold the same nonzero digit. -/
def noDupBox (g : Grid) : Prop :=
  ∀ p q p' q', (p, q) ≠ (p', q') → subgrid_index p q = subgrid_index p' q' →
    g p q ≠ 0 → g p q ≠ g p' q'

/-- The consistency invariant of a SudokuBoard: grid values lie in 0-9, each
membership set holds exactly the nonzero digits of its house, and no house
holds a duplicate nonzero digit. -/
structure BoardInv (b : SudokuBoard) : Prop where
  range : ∀ i j, b._board i j ≤ 9
  rows_mem : ∀ i d, d ∈ b.rows i ↔ (d ≠ 0 ∧ ∃ j, b._board i j = d)
  cols_mem : ∀ j d, d ∈ b.columns j ↔ (d ≠ 0 ∧ ∃ i, b._board i j = d)
  boxes_mem : ∀ k d, d ∈ b.subgrids k ↔
    (d ≠ 0 ∧ ∃ p q, subgrid_index p q = k ∧ b._board p q = d)
  nodupRow : noDupRow b._board
  nodupCol : noDupCol b._board
  nodupBox : noDupBox b._board

/-- Board states reachable from a validly constructed board by place/remove
calls that each respect their documented precondition: place targets an empty
cell (and validates legality itself), remove passes the digit currently
occupying the cell. -/
inductive Reachable (g : Grid) : SudokuBoard → Prop where
  | init (b : SudokuBoard) : SudokuBoard.construct g = .ok b → Reachable g b
  | place (b b' : SudokuBoard) (r c : Fin 9) (d : Nat) : Reachable g b →
      b._board r c = 0 → b.place_number r c d = .ok b' → Reachable g b'
  | remove (b b' : SudokuBoard) (r c : Fin 9) (d : Nat) : Reachable g b →
      b._board r c = d → b.remove_number r c d = .ok b' → Reachable g b'

/-! ## Solutions of a grid -/

/-- s is a complete legal filling of the puzzle g: all cells hold digits 1-9,
no duplicate in any row, column, or box, and s agrees with g on every clue. -/
def SolutionOf (g s : Grid) : Prop :=
  (∀ i j, 1 ≤ s i j ∧ s i j ≤ 9) ∧ noDupRow s ∧ noDupCol s ∧ noDupBox s ∧
  (∀ i j, g i j ≠ 0 → s i j = g i j)

instance (g s : Grid) : Decidable (SolutionOf g s) := by
  unfold SolutionOf noDupRow noDupCol noDupBox
  infer_instance

/-- What a successful _backtrack run guarantees about the final board
relative to the starting board. -/
def BTSuccess (b b' : SudokuBoard) : Prop :=
  BoardInv b' ∧ b'.get_empty_cells = [] ∧
  (∀ i j, b._board i j ≠ 0 → b'._board i j = b._board i j) ∧
  b'._original_board = b._original_board

/-! ## Concrete test grids -/

/-- Build a grid from a ragged list of rows (missing entries are 0). -/
def mkGrid (l : List (List Nat)) : Grid :=
  fun i j => (l.getD i.val []).getD j.val 0

/-- A fully filled legal board (the standard cyclic pattern). -/
def gFull : Grid := fun i j => (i.val * 3 + i.val / 3 + j.val) % 9 + 1

/-- A board with the single clue 1 at (0,0). -/
def gOneClue : Grid := mkGrid [[1]]

/-- gFull with cell (0,0) emptied: one empty cell, unique solution gFull. -/
def gAlmost : Grid := fun i j => if i = 0 ∧ j = 0 then 0 else gFull i j

/-- A legal but unsolvable board: row 0 holds 1-8 in columns 1-8, cell (1,0)
holds 9, so the empty cell (0,0) admits no digit in any complete filling. -/
def gNoSol : Grid := mkGrid [[0, 1, 2, 3, 4, 5, 6, 7, 8], [9]]

/-- The board constructed from the one-clue grid. -/
def bOneClue : SudokuBoard :=
  { _board := gOneClue
    _original_board := gOneClue
    rows := SudokuBoard.initRowSet gOneClue
    columns := SudokuBoard.initColSet gOneClue
    subgrids := SudokuBoard.initBoxSet gOneClue
    filled_values := 0 }

namespace SudokuBoard

theorem check_valid_iff (b : SudokuBoard) (r c : Fin 9) (d : Nat) :
    b.check_valid r c d = true ↔
      d ∉ b.rows r ∧ d ∉ b.columns c ∧ d ∉ b.subgrids (subgrid_index r c) := by
  simp [check_valid]

/-- A nonzero digit passes check_valid iff no cell of the row, the column, or
the box holds it (given the invariant). -/
theorem check_valid_iff_of_inv {b : SudokuBoard} (hb : BoardInv b) (r c : Fin 9)
    {d : Nat} (hd : d ≠ 0) :
    b.check_valid r c d = true ↔
      (∀ j, b._board r j ≠ d) ∧ (∀ i, b._board i c ≠ d) ∧
      (∀ p q, subgrid_index p q = subgrid_index r c → b._board p q ≠ d) := by
  rw [check_valid_iff, hb.rows_mem, hb.cols_mem, hb.boxes_mem]
  constructor
  · rintro ⟨h1, h2, h3⟩
    refine ⟨fun j hj => h1 ⟨hd, j, hj⟩, fun i hi => h2 ⟨hd, i, hi⟩,
      fun p q hpq hv => h3 ⟨hd, p, q, hpq, hv⟩⟩
  · rintro ⟨h1, h2, h3⟩
    refine ⟨?_, ?_, ?_⟩
    · rintro ⟨-, j, hj⟩; exact h1 j hj
    · rintro ⟨-, i, hi⟩; exact h2 i hi
    · rintro ⟨-, p, q, hpq, hv⟩; exact h3 p q hpq hv

/-- Elimination form of a successful placement: the digit was in range,
check_valid held, and the result is the literal field update. -/
theorem place_number_eq_ok {b b' : SudokuBoard} {r c : Fin 9} {d : Nat}
    (h : b.place_number r c d = .ok b') :
    (1 ≤ d ∧ d ≤ 9) ∧ b.check_valid r c d = true ∧
    b' = { b with
           _board := updateCell b._board r c d
           rows := fun i => if i = r then insert d (b.rows r) else b.rows i
           columns := fun j => if j = c then insert d (b.columns c) else b.columns j
           subgrids := fun k =>
             if k = subgrid_index r c then
               insert d (b.subgrids (subgrid_index r c))
             else b.subgrids k
           filled_values := b.filled_values + 1 } := by
  unfold place_number at h
  split_ifs at h with h1 h2
  · cases h
    exact ⟨by omega, h2, rfl⟩

theorem nodupRow_of_not_dup {g : Grid} (h : ∀ i, ¬ dupInRow g i) : noDupRow g := by
  intro i j j' hjj hnz heq
  apply h i
  unfold dupInRow
  refine lt_of_le_of_ne Finset.card_image_le (fun hcard => ?_)
  have hinj := Finset.card_image_iff.mp hcard
  have hj : j ∈ Finset.univ.filter (fun j => 0 < g i j) := by
    simp only [Finset.mem_filter, Finset.mem_univ, true_and]; omega
  have hj' : j' ∈ Finset.univ.filter (fun j => 0 < g i j) := by
    simp only [Finset.mem_filter, Finset.mem_univ, true_and]; omega
  exact hjj (hinj (Finset.mem_coe.mpr hj) (Finset.mem_coe.mpr hj') heq)

theorem nodupCol_of_not_dup {g : Grid} (h : ∀ j, ¬ dupInCol g j) : noDupCol g := by
  intro j i i' hii hnz heq
  apply h j
  unfold dupInCol
  refine lt_of_le_of_ne Finset.card_image_le (fun hcard => ?_)
  have hinj := Finset.card_image_iff.mp hcard
  have hi : i ∈ Finset.univ.filter (fun i => 0 < g i j) := by
    simp only [Finset.mem_filter, Finset.mem_univ, true_and]; omega
  have hi' : i' ∈ Finset.univ.filter (fun i => 0 < g i j) := by
    simp only [Finset.mem_filter, Finset.mem_univ, true_and]; omega
  exact hii (hinj (Finset.mem_coe.mpr hi) (Finset.mem_coe.mpr hi') heq)

theorem nodupBox_of_not_dup {g : Grid} (h : ∀ k, ¬ dupInBox g k) : noDupBox g := by
  intro p q p' q' hne hbox hnz heq
  apply h (subgrid_index p q)
  unfold dupInBox
  refine lt_of_le_of_ne Finset.card_image_le (fun hcard => ?_)
  have hinj := Finset.card_image_iff.mp hcard
  have hp : (p, q) ∈ Finset.univ.filter
      (fun x : Fin 9 × Fin 9 => subgrid_index x.1 x.2 = subgrid_index p q ∧ 0 < g x.1 x.2) := by
    simp only [Finset.mem_filter, Finset.mem_univ, true_and]
    omega
  have hp' : (p', q') ∈ Finset.univ.filter
      (fun x : Fin 9 × Fin 9 => subgrid_index x.1 x.2 = subgrid_index p q ∧ 0 < g x.1 x.2) := by
    simp only [Finset.mem_filter, Finset.mem_univ, true_and]
    exact ⟨hbox.symm, by omega⟩
  exact hne (hinj (Finset.mem_coe.mpr hp) (Finset.mem_coe.mpr hp') heq)

/-- Elimination form of a successful construction: the validation passed and
the fields are exactly the initial population. -/
theorem construct_eq_ok {g : Grid} {b : SudokuBoard} (h : construct g = .ok b) :
    (∀ i j, g i j ≤ 9) ∧ noDupRow g ∧ noDupCol g ∧ noDupBox g ∧
    b = { _board := g
          _original_board := g
          rows := initRowSet g
          columns := initColSet g
          subgrids := initBoxSet g
          filled_values := 0 } := by
  unfold construct _validate_board_legality at h
  split_ifs at h with h1 h2
  cases h
  push_neg at h2
  exact ⟨h1, nodupRow_of_not_dup h2.1, nodupCol_of_not_dup h2.2.1,
    nodupBox_of_not_dup h2.2.2, rfl⟩

/-- Introduction form of a successful placement. -/
theorem place_number_ok_intro (b : SudokuBoard) (r c : Fin 9) (d : Nat)
    (hd1 : 1 ≤ d) (hd9 : d ≤ 9) (hcv : b.check_valid r c d = true) :
    b.place_number r c d = .ok { b with
           _board := updateCell b._board r c d
           rows := fun i => if i = r then insert d (b.rows r) else b.rows i
           columns := fun j => if j = c then insert d (b.columns c) else b.columns j
           subgrids := fun k =>
             if k = subgrid_index r c then
               insert d (b.subgrids (subgrid_index r c))
             else b.subgrids k
           filled_values := b.filled_values + 1 } := by
  unfold place_number
  rw [if_neg (by omega), if_pos hcv]

theorem mem_initRowSet {g : Grid} {i : Fin 9} {d : Nat} :
    d ∈ initRowSet g i ↔ (d ≠ 0 ∧ ∃ j, g i j = d) := by
  simp only [initRowSet, Finset.mem_filter, Finset.mem_image, Finset.mem_univ,
    true_and]
  tauto

theorem mem_initColSet {g : Grid} {j : Fin 9} {d : Nat} :
    d ∈ initColSet g j ↔ (d ≠ 0 ∧ ∃ i, g i j = d) := by
  simp only [initColSet, Finset.mem_filter, Finset.mem_image, Finset.mem_univ,
    true_and]
  tauto

theorem mem_initBoxSet {g : Grid} {k : Fin 9} {d : Nat} :
    d ∈ initBoxSet g k ↔ (d ≠ 0 ∧ ∃ p q, subgrid_index p q = k ∧ g p q = d) := by
  simp only [initBoxSet, Finset.mem_filter, Finset.mem_image, Finset.mem_univ,
    true_and, Prod.exists]
  constructor
  · rintro ⟨⟨p, q, hk, hv⟩, hd⟩
    exact ⟨hd, p, q, hk, hv⟩
  · rintro ⟨hd, p, q, hk, hv⟩
    exact ⟨⟨p, q, hk, hv⟩, hd⟩

/-- The consistency invariant holds immediately after construction. -/
theorem boardInv_construct {g : Grid} {b : SudokuBoard}
    (h : construct g = .ok b) : BoardInv b := by
  obtain ⟨hrange, hrow, hcol, hbox, rfl⟩ := construct_eq_ok h
  exact { range := hrange
          rows_mem := fun i d => mem_initRowSet
          cols_mem := fun j d => mem_initColSet
          boxes_mem := fun k d => mem_initBoxSet
          nodupRow := hrow
          nodupCol := hcol
          nodupBox := hbox }

theorem updateCell_self (g : Grid) (r c : Fin 9) (v : Nat) :
    updateCell g r c v r c = v := by
  simp [updateCell]

theorem updateCell_ne {r c i j : Fin 9} (g : Grid) (v : Nat)
    (h : ¬(i = r ∧ j = c)) : updateCell g r c v i j = g i j := by
  simp [updateCell, h]

/-- Placing a digit at an empty cell preserves the consistency invariant. -/
theorem boardInv_place {b b' : SudokuBoard} {r c : Fin 9} {d : Nat}
    (hb : BoardInv b) (hempty : b._board r c = 0)
    (h : b.place_number r c d = .ok b') : BoardInv b' := by
  obtain ⟨⟨hd1, hd9⟩, hcv, rfl⟩ := place_number_eq_ok h
  have hd0 : d ≠ 0 := by omega
  obtain ⟨hnr, hnc, hnb⟩ := (check_valid_iff_of_inv hb r c hd0).mp hcv
  refine { range := ?_, rows_mem := ?_, cols_mem := ?_, boxes_mem := ?_,
           nodupRow := ?_, nodupCol := ?_, nodupBox := ?_ }
  · intro i j
    dsimp only
    by_cases hij : i = r ∧ j = c
    · obtain ⟨rfl, rfl⟩ := hij
      rw [updateCell_self]; omega
    · rw [updateCell_ne _ _ hij]; exact hb.range i j
  · intro i d'
    dsimp only
    by_cases hi : i = r
    · subst hi
      rw [if_pos rfl, Finset.mem_insert, hb.rows_mem]
      constructor
      · rintro (rfl | ⟨hne, j, hj⟩)
        · exact ⟨hd0, c, updateCell_self _ _ _ _⟩
        · refine ⟨hne, j, ?_⟩
          rw [updateCell_ne]
          · exact hj
          · rintro ⟨-, rfl⟩; exact hne (hj ▸ hempty.symm ▸ rfl)
      · rintro ⟨hne, j, hj⟩
        by_cases hjc : j = c
        · subst hjc; rw [updateCell_self] at hj; exact Or.inl hj.symm
        · rw [updateCell_ne _ _ (by tauto)] at hj
          exact Or.inr ⟨hne, j, hj⟩
    · rw [if_neg hi, hb.rows_mem]
      constructor
      · rintro ⟨hne, j, hj⟩
        exact ⟨hne, j, by rw [updateCell_ne _ _ (by tauto)]; exact hj⟩
      · rintro ⟨hne, j, hj⟩
        rw [updateCell_ne _ _ (by tauto)] at hj
        exact ⟨hne, j, hj⟩
  · intro j d'
    dsimp only
    by_cases hj : j = c
    · subst hj
      rw [if_pos rfl, Finset.mem_insert, hb.cols_mem]
      constructor
      · rintro (rfl | ⟨hne, i, hi⟩)
        · exact ⟨hd0, r, updateCell_self _ _ _ _⟩
        · refine ⟨hne, i, ?_⟩
          rw [updateCell_ne]
          · exact hi
          · rintro ⟨rfl, -⟩; exact hne (hi ▸ hempty.symm ▸ rfl)
      · rintro ⟨hne, i, hi⟩
        by_cases hir : i = r
        · subst hir; rw [updateCell_self] at hi; exact Or.inl hi.symm
        · rw [updateCell_ne _ _ (by tauto)] at hi
          exact Or.inr ⟨hne, i, hi⟩
    · rw [if_neg hj, hb.cols_mem]
      constructor
      · rintro ⟨hne, i, hi⟩
        exact ⟨hne, i, by rw [updateCell_ne _ _ (by tauto)]; exact hi⟩
      · rintro ⟨hne, i, hi⟩
        rw [updateCell_ne _ _ (by tauto)] at hi
        exact ⟨hne, i, hi⟩
  · intro k d'
    dsimp only
    by_cases hk : k = subgrid_index r c
    · subst hk
      rw [if_pos rfl, Finset.mem_insert, hb.boxes_mem]
      constructor
      · rintro (rfl | ⟨hne, p, q, hpq, hv⟩)
        · exact ⟨hd0, r, c, rfl, updateCell_self _ _ _ _⟩
        · refine ⟨hne, p, q, hpq, ?_⟩
          rw [updateCell_ne]
          · exact hv
          · rintro ⟨rfl, rfl⟩; exact hne (hv ▸ hempty.symm ▸ rfl)
      · rintro ⟨hne, p, q, hpq, hv⟩
        by_cases hprc : p = r ∧ q = c
        · obtain ⟨rfl, rfl⟩ := hprc
          rw [updateCell_self] at hv; exact Or.inl hv.symm
        · rw [updateCell_ne _ _ hprc] at hv
          exact Or.inr ⟨hne, p, q, hpq, hv⟩
    · rw [if_neg hk, hb.boxes_mem]
      constructor
      · rintro ⟨hne, p, q, hpq, hv⟩
        refine ⟨hne, p, q, hpq, ?_⟩
        rw [updateCell_ne]
        · exact hv
        · rintro ⟨rfl, rfl⟩; exact hk hpq.symm
      · rintro ⟨hne, p, q, hpq, hv⟩
        by_cases hprc : p = r ∧ q = c
        · obtain ⟨rfl, rfl⟩ := hprc
          exact absurd hpq.symm hk
        · rw [updateCell_ne _ _ hprc] at hv
          exact ⟨hne, p, q, hpq, hv⟩
  · intro i j j' hjj hnz
    dsimp only at hnz ⊢
    by_cases hij : i = r ∧ j = c
    · obtain ⟨rfl, rfl⟩ := hij
      rw [updateCell_self] at hnz ⊢
      rw [updateCell_ne _ _ (by tauto)]
      exact fun hc => hnr j' hc.symm
    · rw [updateCell_ne _ _ hij] at hnz ⊢
      by_cases hij' : i = r ∧ j' = c
      · obtain ⟨rfl, rfl⟩ := hij'
        rw [updateCell_self]
        exact fun hc => hnr j hc
      · rw [updateCell_ne _ _ hij']
        exact hb.nodupRow i j j' hjj hnz
  · intro j i i' hii hnz
    dsimp only at hnz ⊢
    by_cases hij : i = r ∧ j = c
    · obtain ⟨rfl, rfl⟩ := hij
      rw [updateCell_self] at hnz ⊢
      rw [updateCell_ne _ _ (by tauto)]
      exact fun hc => hnc i' hc.symm
    · rw [updateCell_ne _ _ hij] at hnz ⊢
      by_cases hij' : i' = r ∧ j = c
      · obtain ⟨rfl, rfl⟩ := hij'
        rw [updateCell_self]
        exact fun hc => hnc i hc
      · rw [updateCell_ne _ _ hij']
        exact hb.nodupCol j i i' hii hnz
  · intro p q p' q' hne hbox hnz
    dsimp only at hnz ⊢
    by_cases hpq : p = r ∧ q = c
    · obtain ⟨rfl, rfl⟩ := hpq
      rw [updateCell_self] at hnz ⊢
      rw [updateCell_ne _ _ (fun hc => hne (by rw [hc.1, hc.2]))]
      exact fun hc => hnb p' q' hbox.symm hc.symm
    · rw [updateCell_ne _ _ hpq] at hnz ⊢
      by_cases hpq' : p' = r ∧ q' = c
      · obtain ⟨rfl, rfl⟩ := hpq'
        rw [updateCell_self]
        exact fun hc => hnb p q hbox hc
      · rw [updateCell_ne _ _ hpq']
        exact hb.nodupBox p q p' q' hne hbox hnz

/-- Removing the digit that occupies a cell succeeds and performs the literal
field updates (grid cell zeroed, digit erased from the three sets, counter
decremented). -/
theorem remove_number_eq_ok {b : SudokuBoard} {r c : Fin 9} {d : Nat}
    (hb : BoardInv b) (hocc : b._board r c = d) (hd : d ≠ 0) :
    b.remove_number r c d = .ok
      { b with
        _board := updateCell b._board r c 0
        rows := fun i => if i = r then (b.rows r).erase d else b.rows i
        columns := fun j => if j = c then (b.columns c).erase d else b.columns j
        subgrids := fun k =>
          if k = subgrid_index r c then
            (b.subgrids (subgrid_index r c)).erase d
          else b.subgrids k
        filled_values := b.filled_values - 1 } := by
  have h1 : d ∈ b.rows r := (hb.rows_mem r d).mpr ⟨hd, c, hocc⟩
  have h2 : d ∈ b.columns c := (hb.cols_mem c d).mpr ⟨hd, r, hocc⟩
  have h3 : d ∈ b.subgrids (subgrid_index r c) :=
    (hb.boxes_mem (subgrid_index r c) d).mpr ⟨hd, r, c, rfl, hocc⟩
  unfold remove_number
  dsimp only
  rw [if_pos h1, if_pos h2, if_pos h3]

/-- Removing the digit that occupies a cell preserves the consistency
invariant. -/
theorem boardInv_remove {b : SudokuBoard} {r c : Fin 9} {d : Nat}
    (hb : BoardInv b) (hocc : b._board r c = d) (hd : d ≠ 0) :
    BoardInv { b with
        _board := updateCell b._board r c 0
        rows := fun i => if i = r then (b.rows r).erase d else b.rows i
        columns := fun j => if j = c then (b.columns c).erase d else b.columns j
        subgrids := fun k =>
          if k = subgrid_index r c then
            (b.subgrids (subgrid_index r c)).erase d
          else b.subgrids k
        filled_values := b.filled_values - 1 } := by
  refine { range := ?_, rows_mem := ?_, cols_mem := ?_, boxes_mem := ?_,
           nodupRow := ?_, nodupCol := ?_, nodupBox := ?_ }
  · intro i j
    dsimp only
    by_cases hij : i = r ∧ j = c
    · obtain ⟨rfl, rfl⟩ := hij
      rw [updateCell_self]; omega
    · rw [updateCell_ne _ _ hij]; exact hb.range i j
  · intro i d'
    dsimp only
    by_cases hi : i = r
    · subst hi
      rw [if_pos rfl, Finset.mem_erase, hb.rows_mem]
      constructor
      · rintro ⟨hdd, hne, j, hj⟩
        refine ⟨hne, j, ?_⟩
        rw [updateCell_ne]
        · exact hj
        · rintro ⟨-, rfl⟩; exact hdd (hj ▸ hocc ▸ rfl)
      · rintro ⟨hne, j, hj⟩
        by_cases hjc : j = c
        · subst hjc; rw [updateCell_self] at hj; exact absurd hj.symm hne
        · rw [updateCell_ne _ _ (by tauto)] at hj
          refine ⟨?_, hne, j, hj⟩
          rintro rfl
          exact hb.nodupRow i j c hjc (hj ▸ hne) (by rw [hj, hocc])
    · rw [if_neg hi, hb.rows_mem]
      constructor
      · rintro ⟨hne, j, hj⟩
        exact ⟨hne, j, by rw [updateCell_ne _ _ (by tauto)]; exact hj⟩
      · rintro ⟨hne, j, hj⟩
        rw [updateCell_ne _ _ (by tauto)] at hj
        exact ⟨hne, j, hj⟩
  · intro j d'
    dsimp only
    by_cases hj : j = c
    · subst hj
      rw [if_pos rfl, Finset.mem_erase, hb.cols_mem]
      constructor
      · rintro ⟨hdd, hne, i, hi⟩
        refine ⟨hne, i, ?_⟩
        rw [updateCell_ne]
        · exact hi
        · rintro ⟨rfl, -⟩; exact hdd (hi ▸ hocc ▸ rfl)
      · rintro ⟨hne, i, hi⟩
        by_cases hir : i = r
        · subst hir; rw [updateCell_self] at hi; exact absurd hi.symm hne
        · rw [updateCell_ne _ _ (by tauto)] at hi
          refine ⟨?_, hne, i, hi⟩
          rintro rfl
          exact hb.nodupCol j i r hir (hi ▸ hne) (by rw [hi, hocc])
    · rw [if_neg hj, hb.cols_mem]
      constructor
      · rintro ⟨hne, i, hi⟩
        exact ⟨hne, i, by rw [updateCell_ne _ _ (by tauto)]; exact hi⟩
      · rintro ⟨hne, i, hi⟩
        rw [updateCell_ne _ _ (by tauto)] at hi
        exact ⟨hne, i, hi⟩
  · intro k d'
    dsimp only
    by_cases hk : k = subgrid_index r c
    · subst hk
      rw [if_pos rfl, Finset.mem_erase, hb.boxes_mem]
      constructor
      · rintro ⟨hdd, hne, p, q, hpq, hv⟩
        refine ⟨hne, p, q, hpq, ?_⟩
        rw [updateCell_ne]
        · exact hv
        · rintro ⟨rfl, rfl⟩; exact hdd (hv ▸ hocc ▸ rfl)
      · rintro ⟨hne, p, q, hpq, hv⟩
        by_cases hprc : p = r ∧ q = c
        · obtain ⟨rfl, rfl⟩ := hprc
          rw [updateCell_self] at hv; exact absurd hv.symm hne
        · rw [updateCell_ne _ _ hprc] at hv
          refine ⟨?_, hne, p, q, hpq, hv⟩
          rintro rfl
          exact hb.nodupBox p q r c (by simpa using hprc) hpq (hv ▸ hne)
            (by rw [hv, hocc])
    · rw [if_neg hk, hb.boxes_mem]
      constructor
      · rintro ⟨hne, p, q, hpq, hv⟩
        refine ⟨hne, p, q, hpq, ?_⟩
        rw [updateCell_ne]
        · exact hv
        · rintro ⟨rfl, rfl⟩; exact hk hpq.symm
      · rintro ⟨hne, p, q, hpq, hv⟩
        by_cases hprc : p = r ∧ q = c
        · obtain ⟨rfl, rfl⟩ := hprc
          exact absurd hpq.symm hk
        · rw [updateCell_ne _ _ hprc] at hv
          exact ⟨hne, p, q, hpq, hv⟩
  · intro i j j' hjj hnz
    dsimp only at hnz ⊢
    by_cases hij : i = r ∧ j = c
    · obtain ⟨rfl, rfl⟩ := hij
      rw [updateCell_self] at hnz
      exact absurd rfl hnz
    · rw [updateCell_ne _ _ hij] at hnz ⊢
      by_cases hij' : i = r ∧ j' = c
      · obtain ⟨rfl, rfl⟩ := hij'
        rw [updateCell_self]
        omega
      · rw [updateCell_ne _ _ hij']
        exact hb.nodupRow i j j' hjj hnz
  · intro j i i' hii hnz
    dsimp only at hnz ⊢
    by_cases hij : i = r ∧ j = c
    · obtain ⟨rfl, rfl⟩ := hij
      rw [updateCell_self] at hnz
      exact absurd rfl hnz
    · rw [updateCell_ne _ _ hij] at hnz ⊢
      by_cases hij' : i' = r ∧ j = c
      · obtain ⟨rfl, rfl⟩ := hij'
        rw [updateCell_self]
        omega
      · rw [updateCell_ne _ _ hij']
        exact hb.nodupCol j i i' hii hnz
  · intro p q p' q' hne hbox hnz
    dsimp only at hnz ⊢
    by_cases hpq : p = r ∧ q = c
    · obtain ⟨rfl, rfl⟩ := hpq
      rw [updateCell_self] at hnz
      exact absurd rfl hnz
    · rw [updateCell_ne _ _ hpq] at hnz ⊢
      by_cases hpq' : p' = r ∧ q' = c
      · obtain ⟨rfl, rfl⟩ := hpq'
        rw [updateCell_self]
        omega
      · rw [updateCell_ne _ _ hpq']
        exact hb.nodupBox p q p' q' hne hbox hnz

/-- A successful removal implies the digit was in the row set. -/
theorem remove_number_ok_mem {b b' : SudokuBoard} {r c : Fin 9} {d : Nat}
    (h : b.remove_number r c d = .ok b') : d ∈ b.rows r := by
  unfold remove_number at h
  dsimp only at h
  split_ifs at h with h1 h2 h3
  exact h1

/-- Placing a digit at an empty cell and then removing it restores the state
exactly: grid, the three set families, and the counter. -/
theorem place_then_remove {b b' : SudokuBoard} {r c : Fin 9} {d : Nat}
    (hb : BoardInv b) (hempty : b._board r c = 0)
    (hok : b.place_number r c d = .ok b') :
    b'.remove_number r c d = .ok b := by
  have hb' : BoardInv b' := boardInv_place hb hempty hok
  obtain ⟨⟨hd1, hd9⟩, hcv, rfl⟩ := place_number_eq_ok hok
  have hd0 : d ≠ 0 := by omega
  have hnotmem : d ∉ b.rows r := ((check_valid_iff b r c d).mp hcv).1
  have hnotmemc : d ∉ b.columns c := ((check_valid_iff b r c d).mp hcv).2.1
  have hnotmemb : d ∉ b.subgrids (subgrid_index r c) :=
    ((check_valid_iff b r c d).mp hcv).2.2
  rw [remove_number_eq_ok hb' (by dsimp only; exact updateCell_self _ _ _ _) hd0]
  congr 1
  refine SudokuBoard.ext ?_ ?_ ?_ ?_ ?_ ?_ <;> dsimp only
  · funext i j
    by_cases hij : i = r ∧ j = c
    · obtain ⟨rfl, rfl⟩ := hij
      rw [updateCell_self, hempty]
    · rw [updateCell_ne _ _ hij, updateCell_ne _ _ hij]
  · funext i
    by_cases hi : i = r
    · subst hi
      simp [Finset.erase_insert hnotmem]
    · simp [hi]
  · funext j
    by_cases hj : j = c
    · subst hj
      simp [Finset.erase_insert hnotmemc]
    · simp [hj]
  · funext k
    by_cases hk : k = subgrid_index r c
    · subst hk
      simp [Finset.erase_insert hnotmemb]
    · simp [hk]
  · omega

end SudokuBoard

namespace SudokuBoard

theorem length_filter_le_of_imp {α : Type} {p q : α → Bool} :
    ∀ l : List α, (∀ x ∈ l, q x = true → p x = true) →
      (l.filter q).length ≤ (l.filter p).length := by
  intro l
  induction l with
  | nil => intro _; simp
  | cons x xs ih =>
    intro h
    have hxs := ih (fun y hy => h y (List.mem_cons_of_mem x hy))
    by_cases hq : q x = true
    · have hp := h x (List.mem_cons_self x xs) hq
      simp only [List.filter_cons, hq, hp, if_true]
      simpa using hxs
    · simp only [Bool.not_eq_true] at hq
      rw [List.filter_cons, List.filter_cons, if_neg (by simp [hq])]
      by_cases hp : p x = true
      · rw [if_pos hp]
        simp only [List.length_cons]
        omega
      · simp only [Bool.not_eq_true] at hp
        rw [if_neg (by simp [hp])]
        exact hxs

theorem length_filter_lt_of_imp {α : Type} {p q : α → Bool} :
    ∀ (l : List α) (a : α), a ∈ l → p a = true → q a = false →
      (∀ x ∈ l, q x = true → p x = true) →
      (l.filter q).length < (l.filter p).length := by
  intro l
  induction l with
  | nil => intro a ha; cases ha
  | cons x xs ih =>
    intro a ha hpa hqa h
    have hxs := length_filter_le_of_imp xs (fun y hy => h y (List.mem_cons_of_mem x hy))
    rcases List.mem_cons.mp ha with rfl | ha'
    · rw [List.filter_cons, List.filter_cons, if_pos hpa, if_neg (by simp [hqa])]
      simp only [List.length_cons]
      omega
    · by_cases hq : q x = true
      · have hp := h x (List.mem_cons_self x xs) hq
        simp only [List.filter_cons, hq, hp, if_true, List.length_cons]
        have := ih a ha' hpa hqa (fun y hy => h y (List.mem_cons_of_mem x hy))
        omega
      · simp only [Bool.not_eq_true] at hq
        simp only [List.filter_cons, hq, Bool.false_eq_true, if_false]
        have := ih a ha' hpa hqa (fun y hy => h y (List.mem_cons_of_mem x hy))
        by_cases hp : p x = true
        · simp only [hp, if_true, List.length_cons]
          omega
        · simp only [Bool.not_eq_true] at hp
          simp only [hp, Bool.false_eq_true, if_false]
          omega

theorem mem_get_empty_cells {b : SudokuBoard} {p : Fin 9 × Fin 9} :
    p ∈ b.get_empty_cells ↔ b._board p.1 p.2 = 0 := by
  unfold get_empty_cells
  rw [List.mem_filter]
  simp only [List.mem_flatten, List.mem_map, decide_eq_true_eq]
  constructor
  · exact fun h => h.2
  · intro h
    refine ⟨⟨(List.finRange 9).map (fun j => (p.1, j)), ⟨p.1, List.mem_finRange _, rfl⟩,
      List.mem_map.mpr ⟨p.2, List.mem_finRange _, by simp⟩⟩, h⟩

theorem get_empty_cells_eq_nil {b : SudokuBoard} :
    b.get_empty_cells = [] ↔ ∀ i j, b._board i j ≠ 0 := by
  rw [List.eq_nil_iff_forall_not_mem]
  constructor
  · intro h i j hz
    exact h (i, j) (mem_get_empty_cells.mpr hz)
  · intro h p hp
    exact h p.1 p.2 (mem_get_empty_cells.mp hp)

theorem get_empty_cells_length_le (b : SudokuBoard) :
    b.get_empty_cells.length ≤ 81 := by
  unfold get_empty_cells
  exact le_trans (List.length_filter_le _ _) (by decide)

/-- Filling an empty cell with a nonzero digit strictly shrinks the
empty-cell list. -/
theorem get_empty_cells_length_lt {b b' : SudokuBoard} {r c : Fin 9} {d : Nat}
    (hd : d ≠ 0) (hempty : b._board r c = 0)
    (hgrid : b'._board = updateCell b._board r c d) :
    b'.get_empty_cells.length < b.get_empty_cells.length := by
  unfold get_empty_cells
  rw [hgrid]
  refine length_filter_lt_of_imp _ (r, c) ?_ ?_ ?_ ?_
  · exact (List.mem_filter.mp (mem_get_empty_cells.mpr hempty)).1
  · exact decide_eq_true hempty
  · refine decide_eq_false ?_
    show ¬ updateCell b._board r c d r c = 0
    rw [updateCell_self]
    exact hd
  · intro x hx hq
    simp only [decide_eq_true_eq] at hq ⊢
    by_cases hxrc : x.1 = r ∧ x.2 = c
    · rw [show updateCell b._board r c d x.1 x.2 = d from by
        rw [hxrc.1, hxrc.2]; exact updateCell_self _ _ _ _] at hq
      exact absurd hq hd
    · rwa [updateCell_ne _ _ hxrc] at hq

end SudokuBoard

/-- Every reachable state satisfies the consistency invariant and keeps the
original snapshot equal to the constructing grid. -/
theorem reachable_inv {g : Grid} {b : SudokuBoard} (h : Reachable g b) :
    BoardInv b ∧ b._original_board = g := by
  induction h with
  | init b hc =>
    obtain ⟨-, -, -, -, rfl⟩ := SudokuBoard.construct_eq_ok hc
    exact ⟨SudokuBoard.boardInv_construct hc, rfl⟩
  | place b b' r c d hr hempty hok ih =>
    obtain ⟨hb, horig⟩ := ih
    obtain ⟨-, -, rfl⟩ := SudokuBoard.place_number_eq_ok hok
    exact ⟨SudokuBoard.boardInv_place hb hempty hok, horig⟩
  | remove b b' r c d hr hocc hok ih =>
    obtain ⟨hb, horig⟩ := ih
    have hd0 : d ≠ 0 := by
      have hmem := SudokuBoard.remove_number_ok_mem hok
      exact ((hb.rows_mem r d).mp hmem).1
    have := SudokuBoard.remove_number_eq_ok hb hocc hd0
    rw [this] at hok
    cases hok
    exact ⟨SudokuBoard.boardInv_remove hb hocc hd0, horig⟩

namespace SudokuBoard

/-- The digit a solution puts at an empty cell passes check_valid. -/
theorem check_valid_of_solution {b : SudokuBoard} {s : Grid} (hb : BoardInv b)
    (hs : SolutionOf b._board s) {r c : Fin 9} (hempty : b._board r c = 0) :
    b.check_valid r c (s r c) = true := by
  obtain ⟨hrange, hrow, hcol, hbox, hext⟩ := hs
  have hd0 : s r c ≠ 0 := by have := hrange r c; omega
  rw [check_valid_iff_of_inv hb r c hd0]
  refine ⟨?_, ?_, ?_⟩
  · intro j hj
    have hj0 : b._board r j ≠ 0 := by rw [hj]; exact hd0
    have hsj : s r j = b._board r j := hext r j hj0
    have hjc : j ≠ c := by
      rintro rfl
      rw [hempty] at hj
      exact hd0 hj.symm
    exact hrow r j c hjc (by rw [hsj, hj]; exact hd0) (by rw [hsj, hj])
  · intro i hi
    have hi0 : b._board i c ≠ 0 := by rw [hi]; exact hd0
    have hsi : s i c = b._board i c := hext i c hi0
    have hir : i ≠ r := by
      rintro rfl
      rw [hempty] at hi
      exact hd0 hi.symm
    exact hcol c i r hir (by rw [hsi, hi]; exact hd0) (by rw [hsi, hi])
  · intro p q hpq hv
    have hv0 : b._board p q ≠ 0 := by rw [hv]; exact hd0
    have hsv : s p q = b._board p q := hext p q hv0
    have hne : (p, q) ≠ (r, c) := by
      intro hc
      rw [Prod.mk.injEq] at hc
      rw [hc.1, hc.2, hempty] at hv
      exact hd0 hv.symm
    exact hbox p q r c hne hpq (by rw [hsv, hv]; exact hd0) (by rw [hsv, hv])

/-- Candidate membership unwinds to range plus check_valid (the two are
equivalent by construction). -/
theorem mem_find_possible_cell_values {b : SudokuBoard} {r c : Fin 9} {d : Nat} :
    d ∈ b.find_possible_cell_values r c ↔
      (1 ≤ d ∧ d ≤ 9) ∧ b.check_valid r c d = true := by
  unfold find_possible_cell_values _all_possible_values
  rw [Finset.mem_sdiff, check_valid_iff]
  simp only [Finset.mem_union, Finset.mem_Icc, not_or]
  tauto

/-- A solution's digit at an empty cell is a candidate of that cell. -/
theorem solution_mem_candidates {b : SudokuBoard} {s : Grid} (hb : BoardInv b)
    (hs : SolutionOf b._board s) {r c : Fin 9} (hempty : b._board r c = 0) :
    s r c ∈ b.find_possible_cell_values r c := by
  rw [mem_find_possible_cell_values]
  exact ⟨hs.1 r c, check_valid_of_solution hb hs hempty⟩

/-- Successful placement of a solution digit keeps the solution compatible
with the updated grid. -/
theorem solution_updateCell {g s : Grid} (hs : SolutionOf g s) (r c : Fin 9) :
    SolutionOf (updateCell g r c (s r c)) s := by
  obtain ⟨hrange, hrow, hcol, hbox, hext⟩ := hs
  refine ⟨hrange, hrow, hcol, hbox, ?_⟩
  intro i j hij
  by_cases hijrc : i = r ∧ j = c
  · obtain ⟨rfl, rfl⟩ := hijrc
    rw [updateCell_self]
  · rw [updateCell_ne _ _ hijrc] at hij ⊢
    exact hext i j hij

end SudokuBoard

/-- A grid taken as board state whose empty-cell list is empty and which
satisfies the board invariant is a solution of any grid it extends. -/
theorem solutionOf_of_full {g : Grid} {b : SudokuBoard} (hb : BoardInv b)
    (hfull : b.get_empty_cells = [])
    (hext : ∀ i j, g i j ≠ 0 → b._board i j = g i j) :
    SolutionOf g b._board := by
  have hnz : ∀ i j, b._board i j ≠ 0 :=
    SudokuBoard.get_empty_cells_eq_nil.mp hfull
  refine ⟨?_, hb.nodupRow, hb.nodupCol, hb.nodupBox, hext⟩
  intro i j
  have h1 := hb.range i j
  have h2 := hnz i j
  omega

/-! ## Behaviour of the backtracking recursion -/

/-- The digit loop of the basic solver, on a board satisfying the invariant,
either succeeds with a full consistent extension of the board or fails with
the board restored exactly; it never raises and never times out, provided the
recursive call `bt` at the next depth has the same property for boards with
one more filled cell. -/
theorem tryNumsBasic_master (n : Nat)
    (bt : SudokuBoard → BTOutcome)
    (hbt : ∀ b1 : SudokuBoard, BoardInv b1 → b1.get_empty_cells.length < n →
      (∃ b', bt b1 = .done true b' ∧ BTSuccess b1 b') ∨ bt b1 = .done false b1)
    (i j : Fin 9) :
    ∀ (nums : List Nat) (b : SudokuBoard), (∀ x ∈ nums, 1 ≤ x ∧ x ≤ 9) →
      BoardInv b → b._board i j = 0 → b.get_empty_cells.length ≤ n →
      (∃ b', tryNumsBasic bt i j nums b = .done true b' ∧ BTSuccess b b') ∨
      tryNumsBasic bt i j nums b = .done false b := by
  intro nums
  induction nums with
  | nil =>
    intro b _ _ _ _
    right
    rfl
  | cons num rest ih =>
    intro b hrange hb hempty hlen
    have hnumr := hrange num (List.mem_cons_self num rest)
    by_cases hcv : b.check_valid i j num
    · have hplace := SudokuBoard.place_number_ok_intro b i j num hnumr.1 hnumr.2 hcv
      set bP : SudokuBoard :=
        { b with
          _board := updateCell b._board i j num
          rows := fun i' => if i' = i then insert num (b.rows i) else b.rows i'
          columns := fun j' => if j' = j then insert num (b.columns j) else b.columns j'
          subgrids := fun k =>
            if k = subgrid_index i j then
              insert num (b.subgrids (subgrid_index i j))
            else b.subgrids k
          filled_values := b.filled_values + 1 } with hbP
      have hbPinv : BoardInv bP := SudokuBoard.boardInv_place hb hempty hplace
      have hlt : bP.get_empty_cells.length < b.get_empty_cells.length :=
        SudokuBoard.get_empty_cells_length_lt (by omega) hempty rfl
      have hPext : ∀ i' j', b._board i' j' ≠ 0 → bP._board i' j' = b._board i' j' := by
        intro i' j' hnz
        show updateCell b._board i j num i' j' = b._board i' j'
        rw [SudokuBoard.updateCell_ne]
        rintro ⟨rfl, rfl⟩
        exact hnz hempty
      rcases hbt bP hbPinv (by omega) with ⟨b', hbt', hinv', hfull', hext', horig'⟩ | hbt'
      · left
        refine ⟨b', ?_, hinv', hfull', ?_, horig'⟩
        · simp only [tryNumsBasic, if_pos hcv, hplace, hbt']
        · intro i' j' hnz
          rw [hext' i' j' (by rw [hPext i' j' hnz]; exact hnz), hPext i' j' hnz]
      · have hremove := SudokuBoard.place_then_remove hb hempty hplace
        have hrest := ih b (fun x hx => hrange x (List.mem_cons_of_mem num hx))
          hb hempty hlen
        rcases hrest with ⟨b', hres, hsucc⟩ | hres
        · left
          refine ⟨b', ?_, hsucc⟩
          simp only [tryNumsBasic, if_pos hcv, hplace, hbt', hremove]
          exact hres
        · right
          simp only [tryNumsBasic, if_pos hcv, hplace, hbt', hremove]
          exact hres
    · have hrest := ih b (fun x hx => hrange x (List.mem_cons_of_mem num hx))
        hb hempty hlen
      rcases hrest with ⟨b', hres, hsucc⟩ | hres
      · left
        refine ⟨b', ?_, hsucc⟩
        simp only [tryNumsBasic, if_neg hcv]
        exact hres
      · right
        simp only [tryNumsBasic, if_neg hcv]
        exact hres

/-- The basic _backtrack, run on a board satisfying the invariant with the
timeout guard off and enough fuel, either succeeds with a full consistent
extension of the board or fails with the board restored exactly. -/
theorem backtrack_basic_master (e : Bool) (t : ℚ) (hguard : ¬(t ≠ 0 ∧ e = true)) :
    ∀ (fuel : Nat) (b : SudokuBoard), BoardInv b →
      b.get_empty_cells.length < fuel →
      (∃ b', _backtrack_basic e t fuel b = .done true b' ∧ BTSuccess b b') ∨
      _backtrack_basic e t fuel b = .done false b := by
  intro fuel
  induction fuel with
  | zero =>
    intro b _ hlen
    omega
  | succ fuel ih =>
    intro b hb hlen
    have hnums : ∀ x ∈ List.range' 1 9, 1 ≤ x ∧ x ≤ 9 := by
      intro x hx
      rw [List.mem_range'] at hx
      omega
    cases hcells : b.get_empty_cells with
    | nil =>
      left
      refine ⟨b, ?_, hb, hcells, fun i j _ => rfl, rfl⟩
      simp only [_backtrack_basic, if_neg hguard, hcells]
    | cons hd tl =>
      obtain ⟨i, j⟩ := hd
      have hempty : b._board i j = 0 := by
        have : (i, j) ∈ b.get_empty_cells := by rw [hcells]; exact List.mem_cons_self _ _
        exact SudokuBoard.mem_get_empty_cells.mp this
      have hmaster := tryNumsBasic_master fuel (_backtrack_basic e t fuel)
        (fun b1 hb1 hlen1 => ih b1 hb1 hlen1) i j (List.range' 1 9) b
        hnums hb hempty (by omega)
      rcases hmaster with ⟨b', hres, hsucc⟩ | hres
      · left
        refine ⟨b', ?_, hsucc⟩
        simp only [_backtrack_basic, if_neg hguard, hcells]
        exact hres
      · right
        simp only [_backtrack_basic, if_neg hguard, hcells]
        exact hres

/-- If the board still admits the solution s, the digit loop of the basic
solver succeeds whenever the solution digit of the chosen cell is among the
digits left to try. -/
theorem tryNumsBasic_complete (n : Nat) (s : Grid)
    (bt : SudokuBoard → BTOutcome)
    (hbtM : ∀ b1 : SudokuBoard, BoardInv b1 → b1.get_empty_cells.length < n →
      (∃ b', bt b1 = .done true b' ∧ BTSuccess b1 b') ∨ bt b1 = .done false b1)
    (hbtC : ∀ b1 : SudokuBoard, BoardInv b1 → b1.get_empty_cells.length < n →
      SolutionOf b1._board s → ∃ b', bt b1 = .done true b')
    (i j : Fin 9) :
    ∀ (nums : List Nat) (b : SudokuBoard), (∀ x ∈ nums, 1 ≤ x ∧ x ≤ 9) →
      BoardInv b → b._board i j = 0 → b.get_empty_cells.length ≤ n →
      SolutionOf b._board s → s i j ∈ nums →
      ∃ b', tryNumsBasic bt i j nums b = .done true b' := by
  intro nums
  induction nums with
  | nil =>
    intro b _ _ _ _ _ hmem
    cases hmem
  | cons num rest ih =>
    intro b hrange hb hempty hlen hs hmem
    have hnumr := hrange num (List.mem_cons_self num rest)
    by_cases hcv : b.check_valid i j num
    · have hplace := SudokuBoard.place_number_ok_intro b i j num hnumr.1 hnumr.2 hcv
      set bP : SudokuBoard :=
        { b with
          _board := updateCell b._board i j num
          rows := fun i' => if i' = i then insert num (b.rows i) else b.rows i'
          columns := fun j' => if j' = j then insert num (b.columns j) else b.columns j'
          subgrids := fun k =>
            if k = subgrid_index i j then
              insert num (b.subgrids (subgrid_index i j))
            else b.subgrids k
          filled_values := b.filled_values + 1 } with hbP
      have hbPinv : BoardInv bP := SudokuBoard.boardInv_place hb hempty hplace
      have hlt : bP.get_empty_cells.length < b.get_empty_cells.length :=
        SudokuBoard.get_empty_cells_length_lt (by omega) hempty rfl
      rcases hbtM bP hbPinv (by omega) with ⟨b', hbt', hsucc'⟩ | hbt'
      · refine ⟨b', ?_⟩
        simp only [tryNumsBasic, if_pos hcv, hplace, hbt']
      · by_cases hnum : num = s i j
        · subst hnum
          have hsP : SolutionOf bP._board s := by
            show SolutionOf (updateCell b._board i j (s i j)) s
            exact SudokuBoard.solution_updateCell hs i j
          obtain ⟨b', hb'⟩ := hbtC bP hbPinv (by omega) hsP
          rw [hbt'] at hb'
          cases hb'
        · have hmem' : s i j ∈ rest := by
            rcases List.mem_cons.mp hmem with h | h
            · exact absurd h.symm hnum
            · exact h
          have hremove := SudokuBoard.place_then_remove hb hempty hplace
          obtain ⟨b', hres⟩ := ih b
            (fun x hx => hrange x (List.mem_cons_of_mem num hx)) hb hempty hlen
            hs hmem'
          refine ⟨b', ?_⟩
          simp only [tryNumsBasic, if_pos hcv, hplace, hbt', hremove]
          exact hres
    · have hnum : num ≠ s i j := by
        rintro rfl
        exact hcv (SudokuBoard.check_valid_of_solution hb hs hempty)
      have hmem' : s i j ∈ rest := by
        rcases List.mem_cons.mp hmem with h | h
        · exact absurd h.symm hnum
        · exact h
      obtain ⟨b', hres⟩ := ih b
        (fun x hx => hrange x (List.mem_cons_of_mem num hx)) hb hempty hlen
        hs hmem'
      refine ⟨b', ?_⟩
      simp only [tryNumsBasic, if_neg hcv]
      exact hres

/-- Completeness of the basic _backtrack: with the timeout guard off and
enough fuel, a board that admits a solution yields success. -/
theorem backtrack_basic_complete (e : Bool) (t : ℚ)
    (hguard : ¬(t ≠ 0 ∧ e = true)) (s : Grid) :
    ∀ (fuel : Nat) (b : SudokuBoard), BoardInv b →
      b.get_empty_cells.length < fuel → SolutionOf b._board s →
      ∃ b', _backtrack_basic e t fuel b = .done true b' := by
  intro fuel
  induction fuel with
  | zero =>
    intro b _ hlen
    omega
  | succ fuel ih =>
    intro b hb hlen hs
    cases hcells : b.get_empty_cells with
    | nil =>
      refine ⟨b, ?_⟩
      simp only [_backtrack_basic, if_neg hguard, hcells]
    | cons hd tl =>
      obtain ⟨i, j⟩ := hd
      have hempty : b._board i j = 0 := by
        have : (i, j) ∈ b.get_empty_cells := by rw [hcells]; exact List.mem_cons_self _ _
        exact SudokuBoard.mem_get_empty_cells.mp this
      have hnums : ∀ x ∈ List.range' 1 9, 1 ≤ x ∧ x ≤ 9 := by
        intro x hx
        rw [List.mem_range'] at hx
        omega
      have hsmem : s i j ∈ List.range' 1 9 := by
        have := hs.1 i j
        rw [List.mem_range'_1]
        omega
      obtain ⟨b', hres⟩ := tryNumsBasic_complete fuel s (_backtrack_basic e t fuel)
        (fun b1 hb1 hlen1 => backtrack_basic_master e t hguard fuel b1 hb1 hlen1)
        (fun b1 hb1 hlen1 hs1 => ih b1 hb1 hlen1 hs1) i j (List.range' 1 9) b
        hnums hb hempty (by omega) hs hsmem
      refine ⟨b', ?_⟩
      simp only [_backtrack_basic, if_neg hguard, hcells]
      exact hres

/-- On a nonempty cell list, _find_easiest_cell returns some listed cell
together with exactly that cell's candidate set. -/
theorem find_easiest_cell_spec (b : SudokuBoard)
    (cells : List (Fin 9 × Fin 9)) (h : cells ≠ []) :
    ∃ i j, _find_easiest_cell b cells =
        some ((i, j), b.find_possible_cell_values i j) ∧ (i, j) ∈ cells := by
  unfold _find_easiest_cell
  set opts := cells.map (fun p => (p, b.find_possible_cell_values p.1 p.2))
    with hopts
  cases hm : (opts.map (fun q => q.2.card)).min? with
  | none =>
    rw [List.min?_eq_none_iff] at hm
    simp only [hopts, List.map_eq_nil_iff] at hm
    exact absurd hm h
  | some m =>
    have hmem : m ∈ opts.map (fun q => q.2.card) :=
      List.min?_mem (fun a b => by omega) hm
    obtain ⟨q, hq, hcard⟩ := List.mem_map.mp hmem
    have hsome : (opts.find? (fun q => q.2.card = m)).isSome := by
      rw [List.find?_isSome]
      exact ⟨q, hq, by simp [hcard]⟩
    obtain ⟨q0, hq0⟩ := Option.isSome_iff_exists.mp hsome
    have hq0mem : q0 ∈ opts := List.mem_of_find?_eq_some hq0
    obtain ⟨p, hp, hpq0⟩ := List.mem_map.mp hq0mem
    refine ⟨p.1, p.2, ?_, by simpa using hp⟩
    dsimp only
    rw [hm]
    dsimp only
    rw [hq0, ← hpq0]

/-- The digit loop of the easiest-first solver: like the basic loop, but the
tried digits are candidates of the chosen cell rather than being filtered by
check_valid inside the loop. -/
theorem tryNumsEasiest_master (n : Nat)
    (bt : SudokuBoard → BTOutcome)
    (hbt : ∀ b1 : SudokuBoard, BoardInv b1 → b1.get_empty_cells.length < n →
      (∃ b', bt b1 = .done true b' ∧ BTSuccess b1 b') ∨ bt b1 = .done false b1)
    (i j : Fin 9) :
    ∀ (nums : List Nat) (b : SudokuBoard),
      (∀ x ∈ nums, x ∈ b.find_possible_cell_values i j) →
      BoardInv b → b._board i j = 0 → b.get_empty_cells.length ≤ n →
      (∃ b', tryNumsEasiest bt i j nums b = .done true b' ∧ BTSuccess b b') ∨
      tryNumsEasiest bt i j nums b = .done false b := by
  intro nums
  induction nums with
  | nil =>
    intro b _ _ _ _
    right
    rfl
  | cons num rest ih =>
    intro b hcand hb hempty hlen
    have hnumc := hcand num (List.mem_cons_self num rest)
    rw [SudokuBoard.mem_find_possible_cell_values] at hnumc
    obtain ⟨⟨hnum1, hnum9⟩, hcv⟩ := hnumc
    have hplace := SudokuBoard.place_number_ok_intro b i j num hnum1 hnum9 hcv
    set bP : SudokuBoard :=
      { b with
        _board := updateCell b._board i j num
        rows := fun i' => if i' = i then insert num (b.rows i) else b.rows i'
        columns := fun j' => if j' = j then insert num (b.columns j) else b.columns j'
        subgrids := fun k =>
          if k = subgrid_index i j then
            insert num (b.subgrids (subgrid_index i j))
          else b.subgrids k
        filled_values := b.filled_values + 1 } with hbP
    have hbPinv : BoardInv bP := SudokuBoard.boardInv_place hb hempty hplace
    have hlt : bP.get_empty_cells.length < b.get_empty_cells.length :=
      SudokuBoard.get_empty_cells_length_lt (by omega) hempty rfl
    have hPext : ∀ i' j', b._board i' j' ≠ 0 → bP._board i' j' = b._board i' j' := by
      intro i' j' hnz
      show updateCell b._board i j num i' j' = b._board i' j'
      rw [SudokuBoard.updateCell_ne]
      rintro ⟨rfl, rfl⟩
      exact hnz hempty
    rcases hbt bP hbPinv (by omega) with ⟨b', hbt', hinv', hfull', hext', horig'⟩ | hbt'
    · left
      refine ⟨b', ?_, hinv', hfull', ?_, horig'⟩
      · simp only [tryNumsEasiest, hplace, hbt']
      · intro i' j' hnz
        rw [hext' i' j' (by rw [hPext i' j' hnz]; exact hnz), hPext i' j' hnz]
    · have hremove := SudokuBoard.place_then_remove hb hempty hplace
      have hrest := ih b (fun x hx => hcand x (List.mem_cons_of_mem num hx))
        hb hempty hlen
      rcases hrest with ⟨b', hres, hsucc⟩ | hres
      · left
        refine ⟨b', ?_, hsucc⟩
        simp only [tryNumsEasiest, hplace, hbt', hremove]
        exact hres
      · right
        simp only [tryNumsEasiest, hplace, hbt', hremove]
        exact hres

/-- The easiest-first _backtrack, with the guard off and enough fuel, either
succeeds with a full consistent extension of the board or fails with the
board restored exactly. -/
theorem backtrack_easiest_master (e : Bool) (t : ℚ)
    (hguard : ¬(t ≠ 0 ∧ e = true)) :
    ∀ (fuel : Nat) (b : SudokuBoard), BoardInv b →
      b.get_empty_cells.length < fuel →
      (∃ b', _backtrack_easiest e t fuel b = .done true b' ∧ BTSuccess b b') ∨
      _backtrack_easiest e t fuel b = .done false b := by
  intro fuel
  induction fuel with
  | zero =>
    intro b _ hlen
    omega
  | succ fuel ih =>
    intro b hb hlen
    cases hcells : b.get_empty_cells with
    | nil =>
      left
      refine ⟨b, ?_, hb, hcells, fun i j _ => rfl, rfl⟩
      simp only [_backtrack_easiest, if_neg hguard, hcells]
    | cons hd tl =>
      obtain ⟨i, j, hfind, hmemcell⟩ :=
        find_easiest_cell_spec b (hd :: tl) (List.cons_ne_nil hd tl)
      have hmem9 : (i, j) ∈ b.get_empty_cells := by
        rw [hcells]
        exact hmemcell
      have hempty : b._board i j = 0 := SudokuBoard.mem_get_empty_cells.mp hmem9
      have hcand : ∀ x ∈ (b.find_possible_cell_values i j).sort (· ≤ ·),
          x ∈ b.find_possible_cell_values i j := by
        intro x hx
        exact (Finset.mem_sort _).mp hx
      have hmaster := tryNumsEasiest_master fuel (_backtrack_easiest e t fuel)
        (fun b1 hb1 hlen1 => ih b1 hb1 hlen1) i j
        ((b.find_possible_cell_values i j).sort (· ≤ ·)) b hcand hb hempty
        (by omega)
      rcases hmaster with ⟨b', hres, hsucc⟩ | hres
      · left
        refine ⟨b', ?_, hsucc⟩
        simp only [_backtrack_easiest, if_neg hguard, hcells, hfind]
        exact hres
      · right
        simp only [_backtrack_easiest, if_neg hguard, hcells, hfind]
        exact hres

/-- Completeness of the easiest-first digit loop. -/
theorem tryNumsEasiest_complete (n : Nat) (s : Grid)
    (bt : SudokuBoard → BTOutcome)
    (hbtM : ∀ b1 : SudokuBoard, BoardInv b1 → b1.get_empty_cells.length < n →
      (∃ b', bt b1 = .done true b' ∧ BTSuccess b1 b') ∨ bt b1 = .done false b1)
    (hbtC : ∀ b1 : SudokuBoard, BoardInv b1 → b1.get_empty_cells.length < n →
      SolutionOf b1._board s → ∃ b', bt b1 = .done true b')
    (i j : Fin 9) :
    ∀ (nums : List Nat) (b : SudokuBoard),
      (∀ x ∈ nums, x ∈ b.find_possible_cell_values i j) →
      BoardInv b → b._board i j = 0 → b.get_empty_cells.length ≤ n →
      SolutionOf b._board s → s i j ∈ nums →
      ∃ b', tryNumsEasiest bt i j nums b = .done true b' := by
  intro nums
  induction nums with
  | nil =>
    intro b _ _ _ _ _ hmem
    cases hmem
  | cons num rest ih =>
    intro b hcand hb hempty hlen hs hmem
    have hnumc := hcand num (List.mem_cons_self num rest)
    rw [SudokuBoard.mem_find_possible_cell_values] at hnumc
    obtain ⟨⟨hnum1, hnum9⟩, hcv⟩ := hnumc
    have hplace := SudokuBoard.place_number_ok_intro b i j num hnum1 hnum9 hcv
    set bP : SudokuBoard :=
      { b with
        _board := updateCell b._board i j num
        rows := fun i' => if i' = i then insert num (b.rows i) else b.rows i'
        columns := fun j' => if j' = j then insert num (b.columns j) else b.columns j'
        subgrids := fun k =>
          if k = subgrid_index i j then
            insert num (b.subgrids (subgrid_index i j))
          else b.subgrids k
        filled_values := b.filled_values + 1 } with hbP
    have hbPinv : BoardInv bP := SudokuBoard.boardInv_place hb hempty hplace
    have hlt : bP.get_empty_cells.length < b.get_empty_cells.length :=
      SudokuBoard.get_empty_cells_length_lt (by omega) hempty rfl
    rcases hbtM bP hbPinv (by omega) with ⟨b', hbt', hsucc'⟩ | hbt'
    · refine ⟨b', ?_⟩
      simp only [tryNumsEasiest, hplace, hbt']
    · by_cases hnum : num = s i j
      · subst hnum
        have hsP : SolutionOf bP._board s := by
          show SolutionOf (updateCell b._board i j (s i j)) s
          exact SudokuBoard.solution_updateCell hs i j
        obtain ⟨b', hb'⟩ := hbtC bP hbPinv (by omega) hsP
        rw [hbt'] at hb'
        cases hb'
      · have hmem' : s i j ∈ rest := by
          rcases List.mem_cons.mp hmem with h | h
          · exact absurd h.symm hnum
          · exact h
        have hremove := SudokuBoard.place_then_remove hb hempty hplace
        obtain ⟨b', hres⟩ := ih b
          (fun x hx => hcand x (List.mem_cons_of_mem num hx)) hb hempty hlen
          hs hmem'
        refine ⟨b', ?_⟩
        simp only [tryNumsEasiest, hplace, hbt', hremove]
        exact hres

/-- Completeness of the easiest-first _backtrack. -/
theorem backtrack_easiest_complete (e : Bool) (t : ℚ)
    (hguard : ¬(t ≠ 0 ∧ e = true)) (s : Grid) :
    ∀ (fuel : Nat) (b : SudokuBoard), BoardInv b →
      b.get_empty_cells.length < fuel → SolutionOf b._board s →
      ∃ b', _backtrack_easiest e t fuel b = .done true b' := by
  intro fuel
  induction fuel with
  | zero =>
    intro b _ hlen
    omega
  | succ fuel ih =>
    intro b hb hlen hs
    cases hcells : b.get_empty_cells with
    | nil =>
      refine ⟨b, ?_⟩
      simp only [_backtrack_easiest, if_neg hguard, hcells]
    | cons hd tl =>
      obtain ⟨i, j, hfind, hmemcell⟩ :=
        find_easiest_cell_spec b (hd :: tl) (List.cons_ne_nil hd tl)
      have hmem9 : (i, j) ∈ b.get_empty_cells := by
        rw [hcells]
        exact hmemcell
      have hempty : b._board i j = 0 := SudokuBoard.mem_get_empty_cells.mp hmem9
      have hcand : ∀ x ∈ (b.find_possible_cell_values i j).sort (· ≤ ·),
          x ∈ b.find_possible_cell_values i j := by
        intro x hx
        exact (Finset.mem_sort _).mp hx
      have hsmem : s i j ∈ (b.find_possible_cell_values i j).sort (· ≤ ·) := by
        rw [Finset.mem_sort]
        exact SudokuBoard.solution_mem_candidates hb hs hempty
      obtain ⟨b', hres⟩ := tryNumsEasiest_complete fuel s
        (_backtrack_easiest e t fuel)
        (fun b1 hb1 hlen1 => backtrack_easiest_master e t hguard fuel b1 hb1 hlen1)
        (fun b1 hb1 hlen1 hs1 => ih b1 hb1 hlen1 hs1) i j
        ((b.find_possible_cell_values i j).sort (· ≤ ·)) b hcand hb hempty
        (by omega) hs hsmem
      refine ⟨b', ?_⟩
      simp only [_backtrack_easiest, if_neg hguard, hcells, hfind]
      exact hres

/-- A nonzero configured timeout whose deadline has passed aborts the basic
recursion at its very first timeout check. -/
theorem backtrack_basic_timedOut {t : ℚ} (ht : t ≠ 0) :
    ∀ (fuel : Nat) (b : SudokuBoard), fuel ≠ 0 →
      _backtrack_basic true t fuel b = .timedOut b := by
  intro fuel b hfuel
  cases fuel with
  | zero => exact absurd rfl hfuel
  | succ fuel => simp [_backtrack_basic, ht]

theorem reachable_bOneClue : Reachable gOneClue bOneClue :=
  Reachable.init bOneClue rfl

/-! ## Claim theorems -/

/-- C1: the claim says a fully filled, legal input board is classified as
Solved with the input grid returned.  The code compares the final grid with
the entry snapshot and ignores the recursion's Boolean result, so on the
fully filled board gFull both ordering policies return
(None, "Board has no solution") instead. -/
theorem C1_full_board_classified_no_solution :
    ∃ b : SudokuBoard, SudokuBoard.construct gFull = .ok b ∧
      solveBasic 60 false b = .ok (none, "Board has no solution", b) ∧
      solveEasiest 60 false b = .ok (none, "Board has no solution", b) := by
  refine ⟨_, rfl, ?_, ?_⟩ <;> rfl

/-- C2: the claim says filled_count equals the number of non-zero grid cells
immediately after construction of a board with at least one clue.  The code
initialises filled_values to 0 and _initialise_sets never counts the clues:
after constructing the one-clue board the counter is 0 while one grid cell is
non-zero. -/
theorem C2_filled_count_zero_after_construction :
    ∃ b : SudokuBoard, SudokuBoard.construct gOneClue = .ok b ∧
      b.filled_values = 0 ∧
      (Finset.univ.filter
        (fun p : Fin 9 × Fin 9 => b._board p.1 p.2 ≠ 0)).card = 1 := by
  refine ⟨_, rfl, rfl, by decide⟩

/-- C3 (counterexample): after placing 3 at (0,2) on the one-clue board,
reset restores the grid to the original but the row-0 set still contains the
placed digit, so the sets do not reconstruct to their post-construction
values. -/
theorem C3_reset_leaves_sets_stale :
    ∃ b0 b1 : SudokuBoard, SudokuBoard.construct gOneClue = .ok b0 ∧
      b0.place_number 0 2 3 = .ok b1 ∧
      (b1.reset)._board = b0._original_board ∧
      (b1.reset).rows 0 ≠ b0.rows 0 := by
  refine ⟨_, _, rfl, rfl, rfl, by decide⟩

/-- C3 (amended): for every reachable state, reset() restores the grid to
bit-identical equality with the original input grid, but leaves row_sets,
col_sets and box_sets unchanged from their pre-reset values — it does not
rebuild them. -/
theorem C3_reset_restores_grid_only {g : Grid} {b : SudokuBoard}
    (h : Reachable g b) :
    (b.reset)._board = g ∧ (b.reset).rows = b.rows ∧
    (b.reset).columns = b.columns ∧ (b.reset).subgrids = b.subgrids := by
  obtain ⟨-, horig⟩ := reachable_inv h
  exact ⟨horig, rfl, rfl, rfl⟩

/-- C3 witness: the amended statement at the freshly constructed one-clue
board. -/
theorem C3_reset_restores_grid_only_witness :
    ∃ b : SudokuBoard, SudokuBoard.construct gOneClue = .ok b ∧
      ((b.reset)._board = gOneClue ∧ (b.reset).rows = b.rows ∧
       (b.reset).columns = b.columns ∧ (b.reset).subgrids = b.subgrids) := by
  exact ⟨bOneClue, rfl, C3_reset_restores_grid_only reachable_bOneClue⟩

/-- C4 (counterexample): the claim says a timeout of 0 seconds makes solve
return "Timeout occurred" on a non-trivial puzzle.  Python's truthiness test
"if self.timeout" treats 0 as falsy, so a 0 timeout disables the timeout
check entirely: on the one-empty-cell puzzle gAlmost, even with the deadline
oracle reporting the deadline as passed, the search runs to completion and
returns "Solved". -/
theorem C4_zero_timeout_runs_to_completion :
    ∃ b : SudokuBoard, SudokuBoard.construct gAlmost = .ok b ∧
      statusOf (solveBasic 0 true b) = .ok "Solved" := by
  refine ⟨_, rfl, rfl⟩

/-- C4 (amended): a timeout of 0 disables the timeout entirely, so the claim
holds only for nonzero timeouts: with any nonzero configured timeout whose
deadline has passed, solve aborts at the first recursive call's timeout check
and returns (None, "Timeout occurred") for every board. -/
theorem C4_nonzero_timeout_times_out {t : ℚ} (ht : t ≠ 0) (b : SudokuBoard) :
    solveBasic t true b = .ok (none, "Timeout occurred", b) := by
  unfold solveBasic solveWith
  rw [backtrack_basic_timedOut ht 100 b (by norm_num)]

/-- C4 witness: the amended statement at timeout 60 on the constructed
one-clue board. -/
theorem C4_nonzero_timeout_times_out_witness :
    ∃ b : SudokuBoard, SudokuBoard.construct gOneClue = .ok b ∧
      solveBasic 60 true b = .ok (none, "Timeout occurred", b) := by
  refine ⟨_, rfl, C4_nonzero_timeout_times_out (by norm_num) _⟩

/-- C7: for every reachable state, empty cell and digit 1-9, candidate-set
membership is equivalent to the check_valid legality test. -/
theorem C7_candidates_iff_legal {g : Grid} {b : SudokuBoard}
    (h : Reachable g b) (r c : Fin 9) (hempty : b._board r c = 0)
    {d : Nat} (hd1 : 1 ≤ d) (hd9 : d ≤ 9) :
    d ∈ b.find_possible_cell_values r c ↔ b.check_valid r c d = true := by
  rw [SudokuBoard.mem_find_possible_cell_values]
  exact ⟨fun hx => hx.2, fun hx => ⟨⟨hd1, hd9⟩, hx⟩⟩

/-- C7 witness: digit 3 at the empty cell (0,2) of the one-clue board. -/
theorem C7_candidates_iff_legal_witness :
    ∃ b : SudokuBoard, SudokuBoard.construct gOneClue = .ok b ∧
      (3 ∈ b.find_possible_cell_values 0 2 ↔ b.check_valid 0 2 3 = true) := by
  exact ⟨bOneClue, rfl, C7_candidates_iff_legal reachable_bOneClue 0 2
    (by decide) (by decide) (by decide)⟩

/-- C8: for every reachable state, empty cell (r,c) and legal digit d in 1-9,
place(r,c,d) succeeds and the immediate remove(r,c,d) returns the state to
exactly the board before the pair of calls (grid, all three set families, and
the counter). -/
theorem C8_place_then_remove_roundtrip {g : Grid} {b : SudokuBoard}
    (h : Reachable g b) (r c : Fin 9) (d : Nat) (hempty : b._board r c = 0)
    (hd1 : 1 ≤ d) (hd9 : d ≤ 9) (hcv : b.check_valid r c d = true) :
    ∃ b1, b.place_number r c d = .ok b1 ∧ b1.remove_number r c d = .ok b := by
  obtain ⟨hbinv, -⟩ := reachable_inv h
  have hplace := SudokuBoard.place_number_ok_intro b r c d hd1 hd9 hcv
  exact ⟨_, hplace, SudokuBoard.place_then_remove hbinv hempty hplace⟩

/-- C8 witness: digit 3 placed then removed at (0,2) of the one-clue board. -/
theorem C8_place_then_remove_roundtrip_witness :
    ∃ b : SudokuBoard, SudokuBoard.construct gOneClue = .ok b ∧
      ∃ b1, b.place_number 0 2 3 = .ok b1 ∧ b1.remove_number 0 2 3 = .ok b := by
  exact ⟨bOneClue, rfl, C8_place_then_remove_roundtrip reachable_bOneClue
    0 2 3 (by decide) (by decide) (by decide) (by decide)⟩

/-- C9 (counterexample): the claim says check_valid with a digit outside
[1,9] fails with an invalid-argument error.  The code performs no digit
validation there: on the constructed one-clue board it returns the boolean
true for the out-of-range digits 0 and 10. -/
theorem C9_out_of_range_digit_returns_boolean :
    ∃ b : SudokuBoard, SudokuBoard.construct gOneClue = .ok b ∧
      b.check_valid 0 0 0 = true ∧ b.check_valid 0 0 10 = true := by
  refine ⟨_, rfl, by decide, by decide⟩

/-- C9 (amended): check_valid performs no digit-range validation and returns
a boolean for any digit; in every reachable state an out-of-range digit is
absent from all membership sets, so the result is true.  The range check
lives in place_number, which fails with ValueError for such digits. -/
theorem C9_range_validation_in_place_number {g : Grid} {b : SudokuBoard}
    (h : Reachable g b) (r c : Fin 9) {d : Nat} (hd : d < 1 ∨ 9 < d) :
    b.check_valid r c d = true ∧
    b.place_number r c d = .error "Number must be an integer in the range 1-9" := by
  obtain ⟨hbinv, -⟩ := reachable_inv h
  constructor
  · rw [SudokuBoard.check_valid_iff]
    refine ⟨?_, ?_, ?_⟩ <;> intro hmem
    · obtain ⟨hne, j, hj⟩ := (hbinv.rows_mem r d).mp hmem
      have := hbinv.range r j
      omega
    · obtain ⟨hne, i, hi⟩ := (hbinv.cols_mem c d).mp hmem
      have := hbinv.range i c
      omega
    · obtain ⟨hne, p, q, hpq, hv⟩ :=
        (hbinv.boxes_mem (subgrid_index r c) d).mp hmem
      have := hbinv.range p q
      omega
  · unfold SudokuBoard.place_number
    rw [if_pos hd]

/-- C9 witness: the amended statement for digit 0 at (0,0) of the one-clue
board. -/
theorem C9_range_validation_in_place_number_witness :
    ∃ b : SudokuBoard, SudokuBoard.construct gOneClue = .ok b ∧
      (b.check_valid 0 0 0 = true ∧
       b.place_number 0 0 0 = .error "Number must be an integer in the range 1-9") := by
  exact ⟨bOneClue, rfl, C9_range_validation_in_place_number
    reachable_bOneClue 0 0 (by decide)⟩

/-- C10: remove_number called with a digit absent from the row set raises
KeyError from the set removal, but only after the grid cell has been
overwritten with 0: the error state has the zeroed grid cell while all three
set families and the counter are unchanged. -/
theorem C10_remove_overwrites_grid_before_error {b : SudokuBoard}
    (r c : Fin 9) (d : Nat) (hmem : d ∉ b.rows r) :
    b.remove_number r c d =
      .error ("KeyError", { b with _board := updateCell b._board r c 0 }) ∧
    updateCell b._board r c 0 r c = 0 := by
  constructor
  · unfold SudokuBoard.remove_number
    dsimp only
    rw [if_neg hmem]
  · exact SudokuBoard.updateCell_self _ _ _ _

/-- C10 witness: removing the absent digit 5 at cell (0,1) of the one-clue
board. -/
theorem C10_remove_overwrites_grid_before_error_witness :
    ∃ b : SudokuBoard, SudokuBoard.construct gOneClue = .ok b ∧
      (b.remove_number 0 1 5 =
        .error ("KeyError", { b with _board := updateCell b._board 0 1 0 }) ∧
       updateCell b._board 0 1 0 0 1 = 0) := by
  refine ⟨_, rfl, C10_remove_overwrites_grid_before_error 0 1 5 (by decide)⟩

/-- gNoSol admits no complete legal filling: any solution would need a digit
at (0,0) distinct from 1-8 (row 0) and from 9 (column 0). -/
theorem gNoSol_unsolvable : ∀ s, ¬ SolutionOf gNoSol s := by
  intro s hs
  obtain ⟨hrange, hrow, hcol, hbox, hext⟩ := hs
  have hclue : ∀ j : Fin 9, j ≠ 0 → gNoSol 0 j = j.val ∧ gNoSol 0 j ≠ 0 := by
    decide
  have hvals : ∀ j : Fin 9, j ≠ 0 → s 0 j = j.val := by
    intro j hj
    rw [hext 0 j (hclue j hj).2, (hclue j hj).1]
  have h9 : s 1 0 = 9 := by
    rw [hext 1 0 (by decide)]
    decide
  have hr := hrange 0 0
  have E : ∀ j : Fin 9, j ≠ 0 → s 0 0 ≠ s 0 j := fun j hj =>
    hrow 0 0 j (fun hc => hj hc.symm) (by omega)
  have e1 : s 0 0 ≠ 1 := by
    have h := E 1 (by decide)
    rwa [hvals 1 (by decide)] at h
  have e2 : s 0 0 ≠ 2 := by
    have h := E 2 (by decide)
    rwa [hvals 2 (by decide)] at h
  have e3 : s 0 0 ≠ 3 := by
    have h := E 3 (by decide)
    rwa [hvals 3 (by decide)] at h
  have e4 : s 0 0 ≠ 4 := by
    have h := E 4 (by decide)
    rwa [hvals 4 (by decide)] at h
  have e5 : s 0 0 ≠ 5 := by
    have h := E 5 (by decide)
    rwa [hvals 5 (by decide)] at h
  have e6 : s 0 0 ≠ 6 := by
    have h := E 6 (by decide)
    rwa [hvals 6 (by decide)] at h
  have e7 : s 0 0 ≠ 7 := by
    have h := E 7 (by decide)
    rwa [hvals 7 (by decide)] at h
  have e8 : s 0 0 ≠ 8 := by
    have h := E 8 (by decide)
    rwa [hvals 8 (by decide)] at h
  have e9 : s 0 0 ≠ 9 := by
    have h := hcol 0 0 1 (by decide) (by omega)
    rwa [h9] at h
  omega

/-- C6: against a validly constructed board that admits no complete legal
filling, with the timeout guard never firing, solve returns no board with
status "Board has no solution", and the final internal board (hence the
third component) has its grid equal to the original input grid — every
placement made during failed branches was undone. -/
theorem C6_no_solution_classification (g : Grid) (b : SudokuBoard) (t : ℚ)
    (e : Bool) (hc : SudokuBoard.construct g = .ok b)
    (hnosol : ∀ s, ¬ SolutionOf g s) (hguard : ¬(t ≠ 0 ∧ e = true)) :
    solveBasic t e b = .ok (none, "Board has no solution", b) ∧ b._board = g := by
  have hbinv := SudokuBoard.boardInv_construct hc
  obtain ⟨-, -, -, -, hbrec⟩ := SudokuBoard.construct_eq_ok hc
  have hbb : b._board = g := by rw [hbrec]
  have hlen : b.get_empty_cells.length < 100 :=
    lt_of_le_of_lt (SudokuBoard.get_empty_cells_length_le b) (by norm_num)
  rcases backtrack_basic_master e t hguard 100 b hbinv hlen with
    ⟨b', hres, hinv', hfull', hext', -⟩ | hres
  · exact absurd (hbb ▸ solutionOf_of_full hinv' hfull' hext') (hnosol _)
  · refine ⟨?_, hbb⟩
    unfold solveBasic solveWith
    rw [hres]
    dsimp only
    split_ifs with hcond
    · rfl
    · exact absurd rfl hcond

/-- C6 witness: the unsolvable board gNoSol with timeout 60 and the deadline
not passed. -/
theorem C6_no_solution_classification_witness :
    ∃ b : SudokuBoard, SudokuBoard.construct gNoSol = .ok b ∧
      (solveBasic 60 false b = .ok (none, "Board has no solution", b) ∧
       b._board = gNoSol) := by
  refine ⟨_, rfl, C6_no_solution_classification gNoSol _ 60 false rfl
    gNoSol_unsolvable (by simp)⟩

/-- gFull is a solution of gAlmost. -/
theorem gAlmost_solution : SolutionOf gAlmost gFull := by decide

/-- gAlmost has no solution other than gFull: every cell except (0,0) is a
clue, and row 0 then forces 1 at (0,0). -/
theorem gAlmost_unique_solution : ∀ s, SolutionOf gAlmost s → s = gFull := by
  intro s hs
  obtain ⟨hrange, hrow, hcol, hbox, hext⟩ := hs
  have hclue : ∀ i j : Fin 9, ¬(i = 0 ∧ j = 0) →
      gAlmost i j = gFull i j ∧ gAlmost i j ≠ 0 := by decide
  have hvals : ∀ i j : Fin 9, ¬(i = 0 ∧ j = 0) → s i j = gFull i j := by
    intro i j hij
    rw [hext i j (hclue i j hij).2, (hclue i j hij).1]
  have hrow0 : ∀ j : Fin 9, gFull 0 j = j.val + 1 := by decide
  funext i j
  by_cases hij : i = 0 ∧ j = 0
  · obtain ⟨rfl, rfl⟩ := hij
    have hrowvals : ∀ j : Fin 9, j ≠ 0 → s 0 j = j.val + 1 := by
      intro j hj
      rw [hvals 0 j (by tauto), hrow0 j]
    have hr := hrange 0 0
    have E : ∀ j : Fin 9, j ≠ 0 → s 0 0 ≠ s 0 j := fun j hj =>
      hrow 0 0 j (fun hc => hj hc.symm) (by omega)
    have e2 : s 0 0 ≠ 2 := by
      have h := E 1 (by decide)
      rwa [hrowvals 1 (by decide)] at h
    have e3 : s 0 0 ≠ 3 := by
      have h := E 2 (by decide)
      rwa [hrowvals 2 (by decide)] at h
    have e4 : s 0 0 ≠ 4 := by
      have h := E 3 (by decide)
      rwa [hrowvals 3 (by decide)] at h
    have e5 : s 0 0 ≠ 5 := by
      have h := E 4 (by decide)
      rwa [hrowvals 4 (by decide)] at h
    have e6 : s 0 0 ≠ 6 := by
      have h := E 5 (by decide)
      rwa [hrowvals 5 (by decide)] at h
    have e7 : s 0 0 ≠ 7 := by
      have h := E 6 (by decide)
      rwa [hrowvals 6 (by decide)] at h
    have e8 : s 0 0 ≠ 8 := by
      have h := E 7 (by decide)
      rwa [hrowvals 7 (by decide)] at h
    have e9 : s 0 0 ≠ 9 := by
      have h := E 8 (by decide)
      rwa [hrowvals 8 (by decide)] at h
    have hgf : gFull 0 0 = 1 := by decide
    rw [hgf]
    omega
  · rw [hvals i j hij]

/-- C5 (amended): for every valid board with at least one empty cell and a
unique solution, with the deadline never passing, the Basic policy and the
Most-constrained-first policy both return status "Solved" with the identical
solved grid. -/
theorem C5_policies_agree_on_unique_solution (t : ℚ) (g s : Grid)
    (b : SudokuBoard) (hc : SudokuBoard.construct g = .ok b)
    (hs : SolutionOf g s) (huniq : ∀ s', SolutionOf g s' → s' = s)
    (hempty : ∃ i j, g i j = 0) :
    ∃ b1 b2 : SudokuBoard,
      solveBasic t false b = .ok (some b1, "Solved", b1) ∧
      solveEasiest t false b = .ok (some b2, "Solved", b2) ∧
      b1._board = s ∧ b2._board = s := by
  have hguard : ¬(t ≠ 0 ∧ false = true) := by simp
  have hbinv := SudokuBoard.boardInv_construct hc
  obtain ⟨-, -, -, -, hbrec⟩ := SudokuBoard.construct_eq_ok hc
  have hbb : b._board = g := by rw [hbrec]
  have hlen : b.get_empty_cells.length < 100 :=
    lt_of_le_of_lt (SudokuBoard.get_empty_cells_length_le b) (by norm_num)
  have hsb : SolutionOf b._board s := hbb ▸ hs
  have hsg : s ≠ b._board := by
    obtain ⟨i, j, hij⟩ := hempty
    intro hcontra
    have h1 := (hs.1 i j).1
    have h0 : s i j = 0 := by rw [hcontra, hbb, hij]
    omega
  have hbasic : ∃ b1, solveBasic t false b = .ok (some b1, "Solved", b1) ∧
      b1._board = s := by
    rcases backtrack_basic_master false t hguard 100 b hbinv hlen with
      ⟨b1, hres1, hinv1, hfull1, hext1, -⟩ | hres1
    · have hsol1 : SolutionOf g b1._board :=
        hbb ▸ solutionOf_of_full hinv1 hfull1 hext1
      have hb1s : b1._board = s := huniq _ hsol1
      refine ⟨b1, ?_, hb1s⟩
      unfold solveBasic solveWith
      rw [hres1]
      dsimp only
      split_ifs with hcond
      · rw [hb1s] at hcond
        exact absurd hcond hsg
      · rfl
    · obtain ⟨b1', hres1'⟩ :=
        backtrack_basic_complete false t hguard s 100 b hbinv hlen hsb
      rw [hres1] at hres1'
      cases hres1'
  have heasiest : ∃ b2, solveEasiest t false b = .ok (some b2, "Solved", b2) ∧
      b2._board = s := by
    rcases backtrack_easiest_master false t hguard 100 b hbinv hlen with
      ⟨b2, hres2, hinv2, hfull2, hext2, -⟩ | hres2
    · have hsol2 : SolutionOf g b2._board :=
        hbb ▸ solutionOf_of_full hinv2 hfull2 hext2
      have hb2s : b2._board = s := huniq _ hsol2
      refine ⟨b2, ?_, hb2s⟩
      unfold solveEasiest solveWith
      rw [hres2]
      dsimp only
      split_ifs with hcond
      · rw [hb2s] at hcond
        exact absurd hcond hsg
      · rfl
    · obtain ⟨b2', hres2'⟩ :=
        backtrack_easiest_complete false t hguard s 100 b hbinv hlen hsb
      rw [hres2] at hres2'
      cases hres2'
  obtain ⟨b1, h1, h1s⟩ := hbasic
  obtain ⟨b2, h2, h2s⟩ := heasiest
  exact ⟨b1, b2, h1, h2, h1s, h2s⟩

/-- C5 witness: the amended statement at gAlmost (one empty cell, unique
solution gFull) with timeout 60. -/
theorem C5_policies_agree_witness :
    ∃ b : SudokuBoard, SudokuBoard.construct gAlmost = .ok b ∧
      ∃ b1 b2 : SudokuBoard,
        solveBasic 60 false b = .ok (some b1, "Solved", b1) ∧
        solveEasiest 60 false b = .ok (some b2, "Solved", b2) ∧
        b1._board = gFull ∧ b2._board = gFull := by
  refine ⟨_, rfl, C5_policies_agree_on_unique_solution 60 gAlmost gFull _ rfl
    gAlmost_solution gAlmost_unique_solution ⟨0, 0, by decide⟩⟩

/-- C5 (counterexample): the claim as stated quantifies over every valid
board with a unique solution, which includes fully filled boards (whose
unique solution is the board itself).  On gFull both policies return
(None, "Board has no solution") rather than status "Solved" with the solved
grid. -/
theorem C5_full_board_not_solved :
    ∃ b : SudokuBoard, SudokuBoard.construct gFull = .ok b ∧
      SolutionOf gFull gFull ∧ (∀ s, SolutionOf gFull s → s = gFull) ∧
      statusOf (solveBasic 60 false b) = .ok "Board has no solution" ∧
      statusOf (solveEasiest 60 false b) = .ok "Board has no solution" := by
  refine ⟨_, rfl, by decide, ?_, rfl, rfl⟩
  intro s hs
  funext i j
  refine hs.2.2.2.2 i j ?_
  show (i.val * 3 + i.val / 3 + j.val) % 9 + 1 ≠ 0
  omega
